import Mathlib

/-!
Verification of the planogram layout engine and its mutation reducers.

The definitions below are a shallow embedding of the TypeScript source:
* `src/stores/planogramStore.ts` — `recalculateLayout`, `calculateDepthCapacity`,
  `autoResizeModuleToFitProducts`, and the reducers `removeProduct`, `moveProduct`,
  `insertProductAtPosition`;
* `src/utils/excelUtils.ts` — the quantity-expansion loop of `parseExcelFile`.

JavaScript numbers are modelled by `ℚ` (the position encodings are decimal
fractions, exact in `ℚ`), strings by `String`, possibly-`undefined` fields by
`Option`.  JavaScript truthiness on the fields that the code tests with `||`
and `if (...)` is modelled explicitly: `0`, `""` and `undefined` are falsy.
-/

namespace Planogram

/-- One row of the spreadsheet mirror (TS interface `ExcelProduct`).
`originalEan` is optional in the TS type, hence `Option`; the numeric fields
default to `0` when the spreadsheet column is absent, exactly as
`parseExcelFile` produces them. -/
structure ExcelProduct where
  ean : String
  originalEan : Option String
  module : String
  width : ℚ
  height : ℚ
  depth : ℚ
  name : String
  position : ℚ
  quantity : ℕ
  duplicateIndex : ℕ
  rowIndex : ℕ
  deriving DecidableEq, Repr

/-- A product placed in a module (TS interface `Product`); only the fields the
layout engine and the reducers read are kept.  `position = 0` plays the role of
the absent/unset encoding, mirroring the pervasive `product.position || 0`. -/
structure Product where
  id : String
  name : String
  scaledWidth : ℚ
  scaledHeight : ℚ
  x : ℚ
  y : ℚ
  moduleId : String
  ean : Option String
  originalEan : Option String
  realWidth : Option ℚ
  realHeight : Option ℚ
  position : ℚ
  deriving DecidableEq, Repr

/-- A module (TS interface `Module`); `depth = 0` models the absent depth
(the TS code gates on `if (!module.depth)`). -/
structure Module where
  id : String
  name : String
  width : ℚ
  height : ℚ
  depth : ℚ
  x : ℚ
  y : ℚ
  products : List Product
  deriving DecidableEq, Repr

/-- The slice of the zustand store state the verified reducers read and write:
`modules` and `excelData` (`none` models the `null` dataset). -/
structure PlanState where
  modules : List Module
  excelData : Option (List ExcelProduct)
  deriving DecidableEq, Repr

/-- JavaScript `a || b` on optional strings (`undefined` and `""` are falsy). -/
def jsStr : Option String → Option String → Option String
  | some s, b => if s = "" then b else some s
  | none, b => b

/-- JavaScript `a || d` on an optional number (`undefined` and `0` are falsy). -/
def jsNum : Option ℚ → ℚ → ℚ
  | some v, d => if v = 0 then d else v
  | none, d => d

/-- JavaScript truthiness of an optional string. -/
def eanTruthy : Option String → Bool
  | some e => decide (e ≠ "")
  | none => false

/-- Prefix match of a pattern against a character list. -/
def matchesAt : List Char → List Char → Bool
  | [], _ => true
  | _ :: _, [] => false
  | p :: ps, c :: cs => p == c && matchesAt ps cs

/-- First-occurrence replacement on character lists. -/
def replaceFirst (pat rep : List Char) : List Char → List Char
  | [] => []
  | c :: rest =>
    if matchesAt pat (c :: rest) then rep ++ (c :: rest).drop pat.length
    else c :: replaceFirst pat rep rest

/-- JavaScript `s.replace(pat, rep)` with a string pattern: replaces the
*first* occurrence only (the ids are of the form `module-N`, so this strips
the prefix). -/
def jsReplace (s pat rep : String) : String :=
  ⟨replaceFirst pat.data rep.data s.data⟩

/-- `product.ean?.includes('_')` — the duplicated-product test in
`recalculateLayout`; membership of the underscore character in the string's
character list. -/
def isDupCode : Option String → Bool
  | some e => e.data.contains '_'
  | none => false

/-- The record lookup of `recalculateLayout` (store lines 62–76): duplicated
products are matched by exact suffixed code, plain products by
`ep.originalEan === originalEAN || ep.ean === originalEAN` where
`originalEAN = product.originalEan || product.ean`. -/
def lookupRecord (excelData : List ExcelProduct) (p : Product) : Option ExcelProduct :=
  if isDupCode p.ean then
    excelData.find? (fun ep => decide (some ep.ean = p.ean))
  else
    let originalEAN := jsStr p.originalEan p.ean
    excelData.find? (fun ep =>
      decide (ep.originalEan = originalEAN) || decide (some ep.ean = originalEAN))

/-- `excelProduct?.position || 0` — the position a product receives from the
record lookup (store line 86); the product's own stored position is not
consulted. -/
def resolvedPosition (excelData : List ExcelProduct) (p : Product) : ℚ :=
  match lookupRecord excelData p with
  | some ep => ep.position
  | none => 0

/-- The auto-assignment scan (store lines 104–126): products whose resolved
position is `0` receive the running counter, which starts at `1` and is bumped
only when consumed. -/
def assignPositions : List Product → ℚ → List Product
  | [], _ => []
  | p :: rest, autoPosition =>
    if p.position = 0 then
      { p with position := autoPosition } :: assignPositions rest (autoPosition + 1)
    else
      p :: assignPositions rest autoPosition

/-- `Math.floor(position)` — the group key. -/
def groupKey (p : Product) : ℤ := ⌊p.position⌋

/-- `(a.position || 0) - Math.floor(a.position || 0)` — the stack rank used by
the in-group sort comparator. -/
def stackRank (p : Product) : ℚ := p.position - ⌊p.position⌋

/-- `groups[groupKey]` — pushes happen in scan order, so the group is the
order-preserving filter. -/
def groupOf (l : List Product) (k : ℤ) : List Product :=
  l.filter (fun p => decide (groupKey p = k))

/-- The comparator `(a, b) => aDecimal - bDecimal` of the in-group sort;
JavaScript's `Array.prototype.sort` is stable, and a stable sort is uniquely
determined, so Mathlib's insertion sort models it exactly. -/
def rankLE (a b : Product) : Prop := stackRank a ≤ stackRank b

instance : DecidableRel rankLE := fun _ _ => inferInstanceAs (Decidable (_ ≤ _))

instance : IsTotal Product rankLE := ⟨fun _ _ => le_total _ _⟩

instance : IsTrans Product rankLE := ⟨fun _ _ _ => le_trans⟩

/-- `Object.keys(groups).map(Number).sort((a, b) => a - b)` — the distinct
group keys in ascending numeric order. -/
def sortedKeys (l : List Product) : List ℤ :=
  List.insertionSort (· ≤ ·) (l.map groupKey).dedup

/-- `Math.max(...)` over a spread (the argument lists in the source are always
nonempty, so the `[]` default is never reached). -/
def maxQ : List ℚ → ℚ
  | [] => 0
  | [x] => x
  | x :: y :: rest => max x (maxQ (y :: rest))

/-- Same for integer lists (`moveProduct`'s max over group keys). -/
def maxZ : List ℤ → ℤ
  | [] => 0
  | [x] => x
  | x :: y :: rest => max x (maxZ (y :: rest))

/-- The vertical placement loop (store lines 160–179): the whole group shares
`currentX`, and member `i` gets `y = max(0, height − Σ_{j<i} h_j − h_i)`. -/
def placeStack (moduleHeight currentX : ℚ) : List Product → ℚ → List Product
  | [], _ => []
  | p :: rest, stackBefore =>
    { p with x := currentX, y := max 0 (moduleHeight - stackBefore - p.scaledHeight) }
      :: placeStack moduleHeight currentX rest (stackBefore + p.scaledHeight)

/-- The horizontal loop over sorted group keys (store lines 139–193): each
group is rank-sorted, placed at `currentX`, and `currentX` advances by the
group's width `max(scaledWidth)`. -/
def layoutGroups (moduleHeight : ℚ) (resolved : List Product) : List ℤ → ℚ → List Product
  | [], _ => []
  | k :: ks, currentX =>
    let groupProducts := groupOf resolved k
    if groupProducts = [] then
      layoutGroups moduleHeight resolved ks currentX
    else
      let sortedGroupProducts := List.insertionSort rankLE groupProducts
      let groupWidth := maxQ (sortedGroupProducts.map (fun p => p.scaledWidth))
      placeStack moduleHeight currentX sortedGroupProducts 0
        ++ layoutGroups moduleHeight resolved ks (currentX + groupWidth)

/-- The position-resolution phase of `recalculateLayout` (store lines 62–126):
overwrite each product's position with the looked-up record position (or `0`),
then auto-assign the zero positions. -/
def resolveList (excelData : List ExcelProduct) (products : List Product) : List Product :=
  assignPositions (products.map (fun p => { p with position := resolvedPosition excelData p })) 1

/-- The product pipeline of `recalculateLayout`: record lookup, auto
assignment, grouping, sorting and placement. -/
def recalcProducts (excelData : List ExcelProduct) (moduleHeight : ℚ)
    (products : List Product) : List Product :=
  let resolved := resolveList excelData products
  layoutGroups moduleHeight resolved (sortedKeys resolved) 0

/-- `recalculateLayout(moduleId, modules, excelData)` (store lines 55–206).
A missing module or a `null` dataset leaves the module list untouched. -/
def recalculateLayout (moduleId : String) (modules : List Module)
    (excelData : Option (List ExcelProduct)) : List Module :=
  match modules.find? (fun m => decide (m.id = moduleId)), excelData with
  | some md, some ed =>
    let updatedProducts := recalcProducts ed md.height md.products
    modules.map (fun m => if m.id = moduleId then { m with products := updatedProducts } else m)
  | _, _ => modules

/-! ### Spreadsheet import expansion (`excelUtils.ts`, `parseExcelFile` lines 58–107) -/

/-- A data row of the spreadsheet after column extraction and numeric coercion
(lines 63–70 of `excelUtils.ts`); the file/worksheet decoding itself is outside
the verified core. -/
structure ExcelRow where
  ean : String
  module : String
  width : ℚ
  height : ℚ
  depth : ℚ
  name : String
  position : ℚ
  quantity : ℕ
  rowIndex : ℕ
  deriving DecidableEq, Repr

/-- The synthesized position of the `q`-th duplicate (lines 76–90):
integer-position rows get `basePosition + q + 0.1`, decimal-position rows get
`position + q * 0.01`; rows with `quantity ≤ 1` or `position ≤ 0` keep their
position. -/
def duplicatePosition (position : ℚ) (quantity : ℕ) (q : ℕ) : ℚ :=
  if 1 < quantity ∧ 0 < position then
    let basePosition : ℤ := ⌊position⌋
    let decimalPart : ℚ := position - basePosition
    if decimalPart = 0 then (basePosition : ℚ) + q + 0.1
    else position + q * 0.01
  else position

/-- The quantity-expansion loop (lines 72–106): a valid row becomes `quantity`
records with suffixed codes `ean_1 … ean_n` and synthesized positions. -/
def expandRow (r : ExcelRow) : List ExcelProduct :=
  if r.ean ≠ "" ∧ r.module ≠ "" ∧ 0 < r.width then
    (List.range r.quantity).map (fun q =>
      { ean := if 1 < r.quantity then r.ean ++ "_" ++ toString (q + 1) else r.ean
        originalEan := some r.ean
        module := r.module
        width := r.width
        height := r.height
        depth := r.depth
        name := if 1 < r.quantity then
            r.name ++ " (" ++ toString (q + 1) ++ "/" ++ toString r.quantity ++ ")"
          else r.name
        position := duplicatePosition r.position r.quantity q
        quantity := r.quantity
        duplicateIndex := q
        rowIndex := r.rowIndex })
  else []

/-! ### Depth capacity (`calculateDepthCapacity`, store lines 244–311) -/

/-- The per-product entry of the returned capacity map. -/
structure CapacityInfo where
  capacity : ℤ
  isVisible : Bool
  x : ℚ
  width : ℚ
  deriving DecidableEq, Repr

/-- The record match of `calculateDepthCapacity` (lines 269–273):
`ep.ean === product.ean || ep.originalEan === product.originalEan ||
ep.ean === product.originalEan`. -/
def depthMatch (p : Product) (ep : ExcelProduct) : Bool :=
  decide (some ep.ean = p.ean) || decide (ep.originalEan = p.originalEan)
    || decide (some ep.ean = p.originalEan)

/-- One member's contribution to the group capacity (lines 275–282):
`floor(module.depth / (matched depth || 100))` when that depth is positive and
the module has a depth, else `1`. -/
def depthContrib (md : Module) (excelData : Option (List ExcelProduct)) (p : Product) : ℤ :=
  let excelProduct :=
    match excelData with
    | some ed => ed.find? (depthMatch p)
    | none => none
  let productDepth : ℚ := jsNum (excelProduct.map (fun ep => ep.depth)) 100
  if 0 < productDepth ∧ md.depth ≠ 0 then ⌊md.depth / productDepth⌋ else 1

/-- The label anchor box fold (lines 284–293): starts from the first member's
`x`/`scaledWidth` and extends by union with each further member. -/
def groupBox : List Product → ℚ × ℚ
  | [] => (0, 0)
  | p :: rest =>
    rest.foldl
      (fun acc q =>
        let rightEdge := max (acc.1 + acc.2) (q.x + q.scaledWidth)
        (min acc.1 q.x, rightEdge - min acc.1 q.x))
      (p.x, p.scaledWidth)

/-- `calculateDepthCapacity(module, excelData)` as an association list keyed by
product id.  Groups are formed from the products' stored positions; every
member of a group receives the summed capacity and only the member at group
index 0 is visible.  (The JS object iterates its integer keys in ascending
order; the entries of distinct groups are independent, so the enumeration
order only affects the order of this association list, not any lookup.) -/
def calculateDepthCapacity (md : Module) (excelData : Option (List ExcelProduct)) :
    List (String × CapacityInfo) :=
  if md.depth = 0 then []
  else
    ((sortedKeys md.products).map (fun k =>
      let group := groupOf md.products k
      let totalCapacity := (group.map (depthContrib md excelData)).sum
      let box := groupBox group
      group.enum.map (fun iq =>
        (iq.2.id,
          { capacity := totalCapacity, isVisible := decide (iq.1 = 0),
            x := box.1, width := box.2 })))).flatten

/-! ### Module auto-resize (`autoResizeModuleToFitProducts`, store lines 314–367) -/

/-- Returns the new `(width, height)` of a module.  The group sums and the
running maximum are independent of the object-key enumeration order, so the
sorted key list is used; the in-group rank sort of the source (lines 349–353)
does not change a sum and is omitted. -/
def autoResizeModuleToFitProducts (md : Module) : ℚ × ℚ :=
  if md.products = [] then (200, 150)
  else
    let padding : ℚ := 16
    let keys := sortedKeys md.products
    let totalWidth := padding +
      (keys.map (fun k =>
        maxQ ((groupOf md.products k).map (fun p => jsNum p.realWidth p.scaledWidth)))).sum +
      padding
    let maxHeight :=
      (keys.map (fun k =>
        padding + ((groupOf md.products k).map (fun p => jsNum p.realHeight p.scaledHeight)).sum
          + padding)).foldl max 0
    (max totalWidth 100, max maxHeight 50)

/-! ### Reducers (store lines 521–747) -/

/-- `removeProduct(productId)` (store lines 521–571): locate the owning module,
filter the record set by `item.ean !== product.ean && item.originalEan !==
product.originalEan` (only when the product has a truthy code), drop the
product, auto-resize, and relayout the module. -/
def removeProduct (s : PlanState) (productId : String) : PlanState :=
  match s.modules.find? (fun m => m.products.any (fun p => decide (p.id = productId))) with
  | none => s
  | some tm =>
    let targetModuleId := tm.id
    let productToRemove :=
      (s.modules.find? (fun m => decide (m.id = targetModuleId))).bind
        (fun m => m.products.find? (fun p => decide (p.id = productId)))
    let updatedExcelData : Option (List ExcelProduct) :=
      match s.excelData with
      | none => none
      | some ed =>
        match productToRemove with
        | some ptr =>
          if eanTruthy ptr.ean then
            some (ed.filter (fun item =>
              decide (some item.ean ≠ ptr.ean) && decide (item.originalEan ≠ ptr.originalEan)))
          else some ed
        | none => some ed
    let updatedModules := s.modules.map (fun m =>
      if m.id = targetModuleId then
        let remainingProducts := m.products.filter (fun p => decide (p.id ≠ productId))
        let dims := autoResizeModuleToFitProducts { m with products := remainingProducts }
        { m with width := dims.1, height := dims.2, products := remainingProducts }
      else m)
    let finalModules := recalculateLayout targetModuleId updatedModules updatedExcelData
    { modules := finalModules, excelData := updatedExcelData }

/-- `moveProduct(productId, toModuleId, position?)` (store lines 573–645). -/
def moveProduct (s : PlanState) (productId toModuleId : String)
    (position : Option (ℚ × ℚ)) : PlanState :=
  let updatedModules := s.modules.map (fun m =>
    if m.products.any (fun p => decide (p.id = productId)) then
      { m with products := m.products.filter (fun p => decide (p.id ≠ productId)) }
    else m)
  -- the source records the last module whose map step found the product
  match (s.modules.filter (fun m => m.products.any (fun p => decide (p.id = productId)))).getLast? with
  | none => s
  | some fm =>
    match fm.products.find? (fun p => decide (p.id = productId)) with
    | none => s
    | some product =>
      let fromModuleId := fm.id
      let targetModule := updatedModules.find? (fun m => decide (m.id = toModuleId))
      let targetModuleNumber := jsReplace toModuleId "module-" ""
      let nextPosition : ℚ :=
        match targetModule, s.excelData with
        | some _, some ed =>
          let moduleProducts := ed.filter (fun item => decide (item.module = targetModuleNumber))
          if moduleProducts = [] then 1
          else (maxZ (moduleProducts.map (fun p => ⌊p.position⌋)) : ℚ) + 1
        | _, _ => 1
      let updatedExcelData : Option (List ExcelProduct) :=
        match s.excelData with
        | none => none
        | some ed =>
          if eanTruthy product.ean then
            some (ed.map (fun item =>
              if decide (some item.ean = product.ean)
                  || decide (item.originalEan = product.originalEan) then
                { item with module := targetModuleNumber, position := nextPosition }
              else item))
          else some ed
      let movedProduct :=
        { product with
          moduleId := toModuleId
          position := nextPosition
          x := jsNum (position.map Prod.fst) 8
          y := jsNum (position.map Prod.snd) 8 }
      let finalModules := updatedModules.map (fun m =>
        if m.id = toModuleId then { m with products := m.products ++ [movedProduct] }
        else m)
      let recalc1 := recalculateLayout fromModuleId finalModules updatedExcelData
      let recalc2 := recalculateLayout toModuleId recalc1 updatedExcelData
      { modules := recalc2, excelData := updatedExcelData }

/-- `ed.findIndex(item => (item.ean === productEan || item.originalEan ===
productEan) && item.module === moduleNumber)` from the renumber loop of
`insertProductAtPosition` (lines 727–729). -/
def recordMatchIdx (moduleNumber : String) (p : Product) (ed : List ExcelProduct) : Option ℕ :=
  let productEan := jsStr p.ean p.originalEan
  ed.findIdx? (fun item =>
    (decide (some item.ean = productEan) || decide (item.originalEan = productEan))
      && decide (item.module = moduleNumber))

/-- In-place position update of record `j` (lines 731–737). -/
def setRecordPosition (ed : List ExcelProduct) (j : ℕ) (v : ℚ) : List ExcelProduct :=
  match ed[j]? with
  | some r => ed.set j { r with position := v }
  | none => ed

/-- The `newProducts.forEach((product, index) => …)` renumber loop (lines
725–737): each product's first matching record of this module gets position
`index + 1`, the lookups running against the partially updated record list. -/
def renumberRecords (moduleNumber : String) (products : List Product)
    (ed : List ExcelProduct) : List ExcelProduct :=
  products.enum.foldl
    (fun acc iq =>
      match recordMatchIdx moduleNumber iq.2 acc with
      | some j => setRecordPosition acc j ((iq.1 : ℚ) + 1)
      | none => acc)
    ed

/-- `insertProductAtPosition(moduleId, dragIndex, hoverIndex)` (store lines
699–747).  An out-of-range `dragIndex` would splice an `undefined` entry into
the products array in the source; that degenerate case is modelled as a no-op
and excluded by the hypotheses of every theorem below. -/
def insertProductAtPosition (s : PlanState) (moduleId : String)
    (dragIndex hoverIndex : ℕ) : PlanState :=
  match s.modules.find? (fun m => decide (m.id = moduleId)) with
  | none => s
  | some md =>
    match md.products[dragIndex]? with
    | none => s
    | some draggedProduct =>
      let removed := md.products.eraseIdx dragIndex
      let adjustedHoverIndex := if dragIndex < hoverIndex then hoverIndex - 1 else hoverIndex
      -- JavaScript splice inserts at the end when the index exceeds the length
      let newProducts :=
        if removed.length < adjustedHoverIndex then removed ++ [draggedProduct]
        else removed.insertIdx adjustedHoverIndex draggedProduct
      let updatedModules := s.modules.map (fun m =>
        if m.id = moduleId then { m with products := newProducts } else m)
      let moduleNumber := jsReplace moduleId "module-" ""
      let updatedExcelData : Option (List ExcelProduct) :=
        match s.excelData with
        | none => none
        | some ed => some (renumberRecords moduleNumber newProducts ed)
      let finalModules := recalculateLayout moduleId updatedModules updatedExcelData
      { modules := finalModules, excelData := updatedExcelData }

/-! ## Shared concrete fixtures for witnesses and counterexamples -/

/-- A spreadsheet row with integer position 2 and quantity 3. -/
def c1row : ExcelRow :=
  { ean := "5901234123457", module := "1", width := 50, height := 50, depth := 100,
    name := "P", position := 2, quantity := 3, rowIndex := 1 }

/-- The same row with decimal position 1.1. -/
def c1rowDec : ExcelRow := { c1row with position := 1.1 }

/-! ## C1 — import expansion of quantity > 1 rows -/

/-- C1, counterexample.  The claim says a quantity-3 row at integer position 2
expands to positions `2 + q*0.1`, i.e. `2.1, 2.2, 2.3`, all sharing group key
`floor 2 = 2` and stacking as one column.  The import codec actually produces
`basePosition + q + 0.1`, i.e. `2.1, 3.1, 4.1`, whose group keys `2, 3, 4` are
pairwise distinct, so the duplicates land in three separate columns. -/
theorem C1_counterexample :
    (expandRow c1row).map (fun rec => rec.position) = [21/10, 31/10, 41/10]
      ∧ (expandRow c1row).map (fun rec => rec.position) ≠ [21/10, 22/10, 23/10]
      ∧ (expandRow c1row).map (fun rec => (⌊rec.position⌋ : ℤ)) = [2, 3, 4] := by
  refine ⟨?_, ?_, ?_⟩ <;>
    norm_num +decide [expandRow, c1row, duplicatePosition, List.range_succ,
      Int.floor_eq_iff]

/-- C1, amended.  For every valid row (nonempty codes, positive width) with
position `p > 0` and quantity `n > 1` the import expansion produces `n` records
with duplicate-suffixed item codes `ean_1 … ean_n`; an integer-position row
synthesizes `p + q + 0.1` for `q = 0 … n−1`, so the duplicates carry the `n`
pairwise-distinct group keys `p, p+1, …, p+n−1` and occupy separate columns
rather than stacking; a decimal-position row synthesizes `p + q*0.01`, and
these share group key `floor p` as long as the fractional part stays below 1. -/
theorem C1_theorem (r : ExcelRow) (hean : r.ean ≠ "") (hmod : r.module ≠ "")
    (hw : 0 < r.width) (hpos : 0 < r.position) (hq : 1 < r.quantity) :
    ((expandRow r).map (fun rec => rec.ean)
        = (List.range r.quantity).map (fun q => r.ean ++ "_" ++ toString (q + 1)))
      ∧ (r.position - (⌊r.position⌋ : ℚ) = 0 →
          (expandRow r).map (fun rec => rec.position)
            = (List.range r.quantity).map (fun q : ℕ => (⌊r.position⌋ : ℚ) + q + 0.1))
      ∧ (r.position - (⌊r.position⌋ : ℚ) = 0 →
          (expandRow r).map (fun rec => (⌊rec.position⌋ : ℤ))
            = (List.range r.quantity).map (fun q : ℕ => ⌊r.position⌋ + q))
      ∧ (r.position - (⌊r.position⌋ : ℚ) ≠ 0 →
          (expandRow r).map (fun rec => rec.position)
            = (List.range r.quantity).map (fun q : ℕ => r.position + q * 0.01))
      ∧ (r.position - (⌊r.position⌋ : ℚ) ≠ 0 →
          r.position - (⌊r.position⌋ : ℚ) + (r.quantity - 1 : ℕ) * 0.01 < 1 →
          ∀ rec ∈ expandRow r, (⌊rec.position⌋ : ℤ) = ⌊r.position⌋) := by
  have hval : (r.ean ≠ "" ∧ r.module ≠ "" ∧ 0 < r.width) := ⟨hean, hmod, hw⟩
  refine ⟨?_, ?_, ?_, ?_, ?_⟩
  · simp [expandRow, hval, hq]
  · intro hfrac
    simp only [expandRow, if_pos hval, List.map_map]
    refine List.map_congr_left (fun q _ => ?_)
    simp [duplicatePosition, hq, hpos, hfrac]
  · intro hfrac
    simp only [expandRow, if_pos hval, List.map_map]
    refine List.map_congr_left (fun q _ => ?_)
    simp only [Function.comp, duplicatePosition, if_pos (And.intro hq hpos), if_pos hfrac]
    have hcast : ((⌊r.position⌋ : ℚ) + (q : ℚ) + 0.1)
        = ((⌊r.position⌋ + (q : ℤ) : ℤ) : ℚ) + 0.1 := by push_cast; ring
    rw [hcast, Int.floor_int_add]
    norm_num [Int.floor_eq_iff]
  · intro hfrac
    simp only [expandRow, if_pos hval, List.map_map]
    refine List.map_congr_left (fun q _ => ?_)
    simp only [Function.comp, duplicatePosition, if_pos (And.intro hq hpos), if_neg hfrac]
  · intro hfrac hsmall rec hrec
    simp only [expandRow, if_pos hval, List.mem_map] at hrec
    obtain ⟨q, hqmem, rfl⟩ := hrec
    simp only [duplicatePosition, if_pos (And.intro hq hpos), if_neg hfrac]
    have hq01 : (0 : ℚ) ≤ q * 0.01 := by positivity
    have hqlt : (q : ℚ) * 0.01 ≤ (r.quantity - 1 : ℕ) * 0.01 := by
      have : (q : ℚ) ≤ (r.quantity - 1 : ℕ) := by
        exact_mod_cast Nat.le_sub_one_of_lt (List.mem_range.mp hqmem)
      nlinarith
    have hfl := Int.floor_le r.position
    have hfu := Int.lt_floor_add_one r.position
    rw [Int.floor_eq_iff]
    constructor
    · linarith
    · linarith

/-- C1, witness for the amended theorem: the quantity-3 rows at positions `2`
and `1.1` from the fixtures, instantiating both the integer and the decimal
branch. -/
theorem C1_witness :
    (expandRow c1row).map (fun rec => rec.position)
        = (List.range 3).map (fun q : ℕ => (2 : ℚ) + q + 0.1)
      ∧ ∀ rec ∈ expandRow c1rowDec, (⌊rec.position⌋ : ℤ) = 1 := by
  have h1 := C1_theorem c1row (by simp [c1row]) (by simp [c1row])
    (by norm_num [c1row]) (by norm_num [c1row]) (by norm_num [c1row])
  have h2 := C1_theorem c1rowDec (by simp [c1rowDec, c1row]) (by simp [c1rowDec, c1row])
    (by norm_num [c1rowDec, c1row]) (by norm_num [c1rowDec, c1row]) (by norm_num [c1rowDec, c1row])
  constructor
  · have := h1.2.1 (by norm_num [c1row, Int.floor_eq_iff])
    simpa [c1row, Int.floor_eq_iff] using this
  · intro rec hrec
    have hfloor : (⌊c1rowDec.position⌋ : ℤ) = 1 := by
      norm_num [c1rowDec, c1row, Int.floor_eq_iff]
    have := h2.2.2.2.2 (by norm_num [c1rowDec, c1row, hfloor])
      (by norm_num [c1rowDec, c1row, hfloor]) rec hrec
    rw [this, hfloor]

/-! ## C2 — removing a duplicate-suffixed product and its records -/

/-- Duplicate-expanded product `123_1` (original code `123`). -/
def c2prod1 : Product :=
  { id := "P1", name := "A (1/2)", scaledWidth := 50, scaledHeight := 50, x := 0, y := 0,
    moduleId := "module-1", ean := some "123_1", originalEan := some "123",
    realWidth := some 50, realHeight := some 50, position := 0 }

/-- Its sibling duplicate `123_2`. -/
def c2prod2 : Product := { c2prod1 with id := "P2", ean := some "123_2" }

/-- The record of duplicate `123_1`. -/
def c2rec1 : ExcelProduct :=
  { ean := "123_1", originalEan := some "123", module := "1", width := 50, height := 50,
    depth := 100, name := "A (1/2)", position := 21/10, quantity := 2, duplicateIndex := 0,
    rowIndex := 1 }

/-- The record of the sibling duplicate `123_2`. -/
def c2rec2 : ExcelProduct := { c2rec1 with ean := "123_2", position := 31/10, duplicateIndex := 1 }

/-- A module holding the two duplicates. -/
def c2module : Module :=
  { id := "module-1", name := "M", width := 200, height := 150, depth := 300, x := 0, y := 0,
    products := [c2prod1, c2prod2] }

/-- The state for the C2 scenario. -/
def c2state : PlanState := { modules := [c2module], excelData := some [c2rec1, c2rec2] }

/-- C2, counterexample.  The claim says removing the product with item code
`123_1` deletes only the record with that exact code, the sibling record
`123_2` remaining.  In this two-duplicate state the operation empties the
record set — the sibling's record (which shares original item code `123`)
does not remain. -/
theorem C2_counterexample :
    ∃ ed', (removeProduct c2state "P1").excelData = some ed'
      ∧ ¬ ∃ r ∈ ed', r.ean = "123_2" := by
  refine ⟨[], ?_, by simp⟩
  norm_num +decide [removeProduct, c2state, c2module, c2prod1, c2prod2, c2rec1, c2rec2,
    eanTruthy]

/-- C2, amended.  Removing a product whose item code is a truthy string `e`
filters the record set by `record.ean ≠ e ∧ record.originalEan ≠
product.originalEan`: every record whose item code equals the product's exact
item code, **and also** every record sharing the product's original item code
(in particular the sibling duplicate), is deleted; all other records remain. -/
theorem C2_theorem (s : PlanState) (productId : String) (tm : Module) (ptr : Product)
    (e : String) (ed : List ExcelProduct)
    (hfind : s.modules.find? (fun m => m.products.any (fun p => decide (p.id = productId)))
      = some tm)
    (hptr : (s.modules.find? (fun m => decide (m.id = tm.id))).bind
        (fun m => m.products.find? (fun p => decide (p.id = productId))) = some ptr)
    (hean : ptr.ean = some e) (he : e ≠ "") (hed : s.excelData = some ed) :
    ∃ ed', (removeProduct s productId).excelData = some ed'
      ∧ ∀ r, r ∈ ed' ↔ r ∈ ed ∧ r.ean ≠ e ∧ r.originalEan ≠ ptr.originalEan := by
  unfold removeProduct
  rw [hfind]
  simp only [hed, hptr, hean, eanTruthy, he, decide_not, ne_eq, not_false_eq_true,
    decide_True, if_true]
  refine ⟨_, rfl, fun r => ?_⟩
  simp [List.mem_filter, hean]

/-- C2, witness: the amended theorem applied to the concrete two-duplicate
state; both records are deleted there. -/
theorem C2_witness :
    ∃ ed', (removeProduct c2state "P1").excelData = some ed'
      ∧ ∀ r, r ∈ ed' ↔ r ∈ [c2rec1, c2rec2] ∧ r.ean ≠ "123_1" ∧ r.originalEan ≠ some "123" := by
  have h := C2_theorem c2state "P1" c2module c2prod1 "123_1" [c2rec1, c2rec2]
    (by norm_num +decide [c2state, c2module, c2prod1, c2prod2])
    (by norm_num +decide [c2state, c2module, c2prod1, c2prod2])
    (by simp [c2prod1]) (by decide) rfl
  simpa [c2prod1] using h

/-! ## General lemmas about the layout pipeline -/

theorem Product.update_position_self (p : Product) : ({ p with position := p.position }) = p :=
  rfl

/-- Every element of `assignPositions l n` is an element of `l` with (only) its
position replaced. -/
theorem mem_assignPositions {q : Product} :
    ∀ (l : List Product) (n : ℚ), q ∈ assignPositions l n →
      ∃ q0 ∈ l, ∃ v : ℚ, q = { q0 with position := v }
  | [], n, h => by simp [assignPositions] at h
  | p :: rest, n, h => by
    by_cases hp : p.position = 0
    · rw [assignPositions, if_pos hp] at h
      rcases List.mem_cons.mp h with h | h
      · exact ⟨p, List.mem_cons_self .., _, h⟩
      · obtain ⟨q0, hq0, v, hv⟩ := mem_assignPositions rest (n + 1) h
        exact ⟨q0, List.mem_cons_of_mem _ hq0, v, hv⟩
    · rw [assignPositions, if_neg hp] at h
      rcases List.mem_cons.mp h with h | h
      · exact ⟨p, List.mem_cons_self .., p.position, by rw [h, Product.update_position_self]⟩
      · obtain ⟨q0, hq0, v, hv⟩ := mem_assignPositions rest n h
        exact ⟨q0, List.mem_cons_of_mem _ hq0, v, hv⟩

/-- All products of a placed stack sit at the stack's `currentX`. -/
theorem placeStack_x_eq {H cx : ℚ} :
    ∀ (l : List Product) (sb : ℚ), ∀ p ∈ placeStack H cx l sb, p.x = cx
  | [], _, p, h => by simp [placeStack] at h
  | q :: rest, sb, p, h => by
    rw [placeStack] at h
    rcases List.mem_cons.mp h with h | h
    · rw [h]
    · exact placeStack_x_eq rest (sb + q.scaledHeight) p h

/-- `y = max(0, …)`: placed products never go above the module's top edge. -/
theorem placeStack_y_nonneg {H cx : ℚ} :
    ∀ (l : List Product) (sb : ℚ), ∀ p ∈ placeStack H cx l sb, 0 ≤ p.y
  | [], _, p, h => by simp [placeStack] at h
  | q :: rest, sb, p, h => by
    rw [placeStack] at h
    rcases List.mem_cons.mp h with h | h
    · rw [h]; exact le_max_left _ _
    · exact placeStack_y_nonneg rest (sb + q.scaledHeight) p h

/-- Every element of a placed stack keeps the fields of some stack member and
is that member placed at `cx` with the clamped running `y`. -/
theorem mem_placeStack {H cx : ℚ} {p : Product} :
    ∀ (l : List Product) (sb : ℚ), p ∈ placeStack H cx l sb →
      ∃ q ∈ l, ∃ sb' : ℚ,
        p = { q with x := cx, y := max 0 (H - sb' - q.scaledHeight) }
          ∧ (0 ≤ sb → (∀ a ∈ l, 0 ≤ a.scaledHeight) → 0 ≤ sb')
  | [], _, h => by simp [placeStack] at h
  | q :: rest, sb, h => by
    rw [placeStack] at h
    rcases List.mem_cons.mp h with h | h
    · exact ⟨q, List.mem_cons_self .., sb, h, fun h0 _ => h0⟩
    · obtain ⟨q0, hq0, sb', hp, hsb'⟩ := mem_placeStack rest (sb + q.scaledHeight) h
      refine ⟨q0, List.mem_cons_of_mem _ hq0, sb', hp, fun h0 hnn => hsb' ?_ ?_⟩
      · have := hnn q (List.mem_cons_self ..)
        linarith
      · exact fun a ha => hnn a (List.mem_cons_of_mem _ ha)

/-- The maximum of a nonempty list of nonnegative rationals is nonnegative. -/
theorem maxQ_nonneg : ∀ l : List ℚ, l ≠ [] → (∀ a ∈ l, 0 ≤ a) → 0 ≤ maxQ l
  | [], h, _ => absurd rfl h
  | [x], _, hnn => by simpa [maxQ] using hnn x (by simp)
  | x :: y :: rest, _, hnn => by
    rw [maxQ]
    exact le_max_of_le_left (hnn x (by simp))

/-- Every product laid out by `layoutGroups` comes from the placed stack of one
of the keys, at some nonnegative column offset `≥` the initial one. -/
theorem mem_layoutGroups {H : ℚ} {r : List Product} {p : Product} :
    ∀ (keys : List ℤ) (cx : ℚ), p ∈ layoutGroups H r keys cx →
      ∃ k ∈ keys, ∃ cx' : ℚ,
        p ∈ placeStack H cx' (List.insertionSort rankLE (groupOf r k)) 0
          ∧ (((∀ a ∈ r, 0 ≤ a.scaledWidth) ∧ 0 ≤ cx) → cx ≤ cx')
  | [], _, h => by simp [layoutGroups] at h
  | k :: ks, cx, h => by
    rw [layoutGroups] at h
    by_cases hg : groupOf r k = []
    · rw [if_pos hg] at h
      obtain ⟨k', hk', cx', hmem, hle⟩ := mem_layoutGroups ks cx h
      exact ⟨k', List.mem_cons_of_mem _ hk', cx', hmem, hle⟩
    · rw [if_neg hg] at h
      rcases List.mem_append.mp h with h | h
      · exact ⟨k, List.mem_cons_self .., cx, h, fun _ => le_refl _⟩
      · obtain ⟨k', hk', cx', hmem, hle⟩ := mem_layoutGroups ks _ h
        refine ⟨k', List.mem_cons_of_mem _ hk', cx', hmem, fun hw => ?_⟩
        refine le_trans ?_ (hle ⟨hw.1, ?_⟩)
        all_goals {
          have hne : (List.insertionSort rankLE (groupOf r k)).map
              (fun p => p.scaledWidth) ≠ [] := by
            simp only [ne_eq, List.map_eq_nil_iff]
            intro hnil
            have hlen := (List.perm_insertionSort rankLE (groupOf r k)).length_eq
            rw [hnil] at hlen
            exact hg (List.length_eq_zero.mp hlen.symm)
          have hmax : 0 ≤ maxQ ((List.insertionSort rankLE (groupOf r k)).map
              (fun p => p.scaledWidth)) := by
            refine maxQ_nonneg _ hne (fun a ha => ?_)
            obtain ⟨q, hq, rfl⟩ := List.mem_map.mp ha
            have : q ∈ groupOf r k := ((List.perm_insertionSort rankLE _).mem_iff).mp hq
            exact hw.1 q (List.mem_filter.mp this).1
          linarith [hw.2] }

/-- Elements of the resolved list share every non-position field with an input
product. -/
theorem mem_resolved {ed : List ExcelProduct} {products : List Product} {q : Product}
    (h : q ∈ resolveList ed products) :
    ∃ p0 ∈ products, ∃ v : ℚ, q = { p0 with position := v } := by
  rw [resolveList] at h
  obtain ⟨q0, hq0, v, hv⟩ := mem_assignPositions _ _ h
  obtain ⟨p0, hp0, rfl⟩ := List.mem_map.mp hq0
  exact ⟨p0, hp0, v, hv⟩

/-! ## C3 — coordinate clamping -/

/-- A product with no record data, 60 wide, in a module 100 wide. -/
def c3prod1 : Product :=
  { id := "E1", name := "E1", scaledWidth := 60, scaledHeight := 50, x := 0, y := 0,
    moduleId := "module-1", ean := none, originalEan := none,
    realWidth := none, realHeight := none, position := 0 }

/-- A second such product. -/
def c3prod2 : Product := { c3prod1 with id := "E2" }

/-- A 100×150 module holding the two 60-wide products. -/
def c3module : Module :=
  { id := "module-1", name := "M", width := 100, height := 150, depth := 0, x := 0, y := 0,
    products := [c3prod1, c3prod2] }

/-- C3, counterexample.  The claim bounds every computed `x` by
`module.width − productWidth`.  With two 60-wide products auto-assigned to
columns 1 and 2 of a 100-wide module, the second column starts at `x = 60`,
but `module.width − productWidth = 40`: the horizontal coordinate is not
clamped and the product extends outside its module. -/
theorem C3_counterexample :
    (recalculateLayout "module-1" [c3module] (some [])).map
        (fun m => (m.width, m.products.map (fun p => (p.id, p.x, p.scaledWidth))))
      = [(100, [("E1", 0, 60), ("E2", 60, 60)])]
      ∧ ¬ ((60 : ℚ) ≤ 100 - 60) := by
  constructor
  · norm_num +decide [recalculateLayout, recalcProducts, resolveList, assignPositions, resolvedPosition,
      lookupRecord, isDupCode, jsStr, c3module, c3prod1, c3prod2, sortedKeys, groupKey,
      layoutGroups, groupOf, placeStack, List.insertionSort, List.orderedInsert, rankLE,
      stackRank, maxQ, List.dedup, List.pwFilter]
  · norm_num

/-- C3, amended.  The layout recomputation clamps only the vertical
coordinate, and only from below: every computed `y` satisfies `0 ≤ y`
unconditionally; when all product heights are nonnegative and the product is
no taller than the module, additionally `y ≤ moduleHeight − productHeight`;
and when all product widths are nonnegative, `0 ≤ x`.  No clamping of `x`
against `module.width − productWidth` is performed (see the counterexample). -/
theorem C3_theorem (ed : List ExcelProduct) (H : ℚ) (products : List Product) :
    ∀ p ∈ recalcProducts ed H products,
      0 ≤ p.y
      ∧ ((∀ q ∈ products, 0 ≤ q.scaledWidth) → 0 ≤ p.x)
      ∧ ((∀ q ∈ products, 0 ≤ q.scaledHeight) → p.scaledHeight ≤ H →
          p.y ≤ H - p.scaledHeight) := by
  intro p hp
  rw [recalcProducts] at hp
  obtain ⟨k, _, cx', hmem, hcx⟩ := mem_layoutGroups _ _ hp
  have hwr : (∀ q ∈ products, 0 ≤ q.scaledWidth) →
      ∀ a ∈ resolveList ed products, 0 ≤ a.scaledWidth := by
    intro hw a ha
    obtain ⟨p0, hp0, v, rfl⟩ := mem_resolved ha
    exact hw p0 hp0
  have hhr : (∀ q ∈ products, 0 ≤ q.scaledHeight) →
      ∀ a ∈ resolveList ed products, 0 ≤ a.scaledHeight := by
    intro hh a ha
    obtain ⟨p0, hp0, v, rfl⟩ := mem_resolved ha
    exact hh p0 hp0
  refine ⟨placeStack_y_nonneg _ _ p hmem, ?_, ?_⟩
  · intro hw
    have hx := placeStack_x_eq _ _ p hmem
    rw [hx]
    exact le_trans (le_refl 0) (hcx ⟨hwr hw, le_refl 0⟩)
  · intro hh hle
    obtain ⟨q, hq, sb', hpq, hsb'⟩ := mem_placeStack _ _ hmem
    have hqr : q ∈ resolveList ed products := by
      have : q ∈ groupOf _ k := ((List.perm_insertionSort rankLE _).mem_iff).mp hq
      exact (List.mem_filter.mp this).1
    have hsb0 : 0 ≤ sb' := by
      refine hsb' (le_refl 0) (fun a ha => ?_)
      have : a ∈ groupOf _ k := ((List.perm_insertionSort rankLE _).mem_iff).mp ha
      exact hhr hh a (List.mem_filter.mp this).1
    have hqh : p.scaledHeight = q.scaledHeight := by rw [hpq]
    rw [hpq]
    simp only [max_le_iff]
    constructor
    · rw [← hqh]; linarith
    · rw [← hqh]; linarith

/-- C3, witness: the amended theorem applied to the 100×150 module with two
60-wide products; the second product is placed at `x = 60`, `y = 100`. -/
theorem C3_witness :
    0 ≤ ({ c3prod2 with x := 60, y := 100, position := 2 } : Product).y
      ∧ 0 ≤ ({ c3prod2 with x := 60, y := 100, position := 2 } : Product).x
      ∧ ({ c3prod2 with x := 60, y := 100, position := 2 } : Product).y
          ≤ 150 - ({ c3prod2 with x := 60, y := 100, position := 2 } : Product).scaledHeight := by
  have hlist : recalcProducts [] 150 [c3prod1, c3prod2]
      = [{ c3prod1 with x := 0, y := 100, position := 1 },
         { c3prod2 with x := 60, y := 100, position := 2 }] := by
    norm_num +decide [recalcProducts, resolveList, assignPositions, resolvedPosition,
      lookupRecord, isDupCode, jsStr, c3prod1, c3prod2, sortedKeys, groupKey,
      layoutGroups, groupOf, placeStack, List.insertionSort, List.orderedInsert, rankLE,
      stackRank, maxQ, List.dedup, List.pwFilter]
  have hmem : ({ c3prod2 with x := 60, y := 100, position := 2 } : Product)
      ∈ recalcProducts [] 150 [c3prod1, c3prod2] := by
    rw [hlist]; simp
  have h := C3_theorem [] 150 [c3prod1, c3prod2] _ hmem
  exact ⟨h.1, h.2.1 (by norm_num [c3prod1, c3prod2]),
    h.2.2 (by norm_num [c3prod1, c3prod2]) (by norm_num [c3prod2, c3prod1])⟩

/-! ## Key-list and column-offset lemmas -/

/-- The group width the layout loop computes for key `k` (store line 157):
the maximum `scaledWidth` over the rank-sorted group. -/
def groupWidthOf (r : List Product) (k : ℤ) : ℚ :=
  maxQ ((List.insertionSort rankLE (groupOf r k)).map (fun p => p.scaledWidth))

theorem sortedKeys_sorted (l : List Product) : (sortedKeys l).Sorted (· < ·) := by
  have h1 : (sortedKeys l).Sorted (· ≤ ·) := List.sorted_insertionSort _ _
  have h2 : (sortedKeys l).Nodup :=
    ((List.perm_insertionSort _ _).nodup_iff).mpr (List.nodup_dedup _)
  exact h1.lt_of_le h2

theorem sortedKeys_mem_iff {l : List Product} {k : ℤ} :
    k ∈ sortedKeys l ↔ ∃ p ∈ l, groupKey p = k := by
  rw [sortedKeys]
  rw [(List.perm_insertionSort _ _).mem_iff, List.mem_dedup, List.mem_map]

theorem groupOf_ne_nil_of_mem_sortedKeys {l : List Product} {k : ℤ}
    (h : k ∈ sortedKeys l) : groupOf l k ≠ [] := by
  obtain ⟨p, hp, hk⟩ := sortedKeys_mem_iff.mp h
  have : p ∈ groupOf l k := List.mem_filter.mpr ⟨hp, by simp [hk]⟩
  exact List.ne_nil_of_mem this

/-- Every product of a placed stack for key `k` has group key `k`. -/
theorem groupKey_of_mem_stack {H cx : ℚ} {r : List Product} {k : ℤ} {p : Product}
    (h : p ∈ placeStack H cx (List.insertionSort rankLE (groupOf r k)) 0) :
    groupKey p = k := by
  obtain ⟨q, hq, sb', hpq, _⟩ := mem_placeStack _ _ h
  have hq' : q ∈ groupOf r k := ((List.perm_insertionSort rankLE _).mem_iff).mp hq
  have hk : groupKey q = k := by
    have := (List.mem_filter.mp hq').2
    simpa using this
  rw [hpq, ← hk]
  rfl

/-- The column-offset characterization of the horizontal loop: over a strictly
sorted key list with nonempty groups, every placed product's `x` is the start
offset plus the summed widths of the strictly lower keys. -/
theorem layoutGroups_x_char (H : ℚ) (r : List Product) :
    ∀ (keys : List ℤ) (cx : ℚ), keys.Sorted (· < ·) →
      (∀ k ∈ keys, groupOf r k ≠ []) →
      ∀ p ∈ layoutGroups H r keys cx,
        p.x = cx + (((keys.filter (fun j => decide (j < groupKey p))).map
          (groupWidthOf r)).sum)
  | [], cx, _, _, p, hp => by simp [layoutGroups] at hp
  | k :: ks, cx, hsort, hne, p, hp => by
    obtain ⟨hklt, hsort'⟩ := List.sorted_cons.mp hsort
    rw [layoutGroups, if_neg (hne k (List.mem_cons_self ..))] at hp
    rcases List.mem_append.mp hp with hmem | hmem
    · have hx : p.x = cx := placeStack_x_eq _ _ p hmem
      have hkey : groupKey p = k := groupKey_of_mem_stack hmem
      have hfilter : (k :: ks).filter (fun j => decide (j < groupKey p)) = [] := by
        rw [hkey]
        refine List.filter_eq_nil_iff.mpr ?_
        intro j hj
        simp only [decide_eq_true_eq]
        rcases List.mem_cons.mp hj with rfl | hj
        · exact lt_irrefl j
        · exact not_lt_of_lt (hklt j hj)
      rw [hx, hfilter]
      simp
    · have hrec := layoutGroups_x_char H r ks
        (cx + maxQ ((List.insertionSort rankLE (groupOf r k)).map (fun p => p.scaledWidth)))
        hsort' (fun j hj => hne j (List.mem_cons_of_mem _ hj)) p hmem
      obtain ⟨k', hk', cx', hstk, _⟩ := mem_layoutGroups ks _ hmem
      have hkey : groupKey p = k' := groupKey_of_mem_stack hstk
      have hklt' : k < groupKey p := hkey ▸ hklt k' hk'
      have hfilter : (k :: ks).filter (fun j => decide (j < groupKey p))
          = k :: ks.filter (fun j => decide (j < groupKey p)) := by
        rw [List.filter_cons]
        simp [hklt']
      rw [hfilter]
      simp only [List.map_cons, List.sum_cons]
      rw [hrec, groupWidthOf]
      ring

/-- The elements of the resolved list have nonnegative widths whenever the
input products do. -/
theorem resolveList_width_nonneg {ed : List ExcelProduct} {products : List Product}
    (hW : ∀ q ∈ products, 0 ≤ q.scaledWidth) :
    ∀ a ∈ resolveList ed products, 0 ≤ a.scaledWidth := by
  intro a ha
  obtain ⟨p0, hp0, v, rfl⟩ := mem_resolved ha
  exact hW p0 hp0

/-- Group widths over the resolved list are nonnegative for keys with a
nonempty group. -/
theorem groupWidthOf_nonneg {r : List Product} {k : ℤ}
    (hne : groupOf r k ≠ []) (hW : ∀ a ∈ r, 0 ≤ a.scaledWidth) :
    0 ≤ groupWidthOf r k := by
  rw [groupWidthOf]
  refine maxQ_nonneg _ ?_ ?_
  · simp only [ne_eq, List.map_eq_nil_iff]
    intro hnil
    have hlen := (List.perm_insertionSort rankLE (groupOf r k)).length_eq
    rw [hnil] at hlen
    exact hne (List.length_eq_zero.mp hlen.symm)
  · intro a ha
    obtain ⟨q, hq, rfl⟩ := List.mem_map.mp ha
    have : q ∈ groupOf r k := ((List.perm_insertionSort rankLE _).mem_iff).mp hq
    exact hW q (List.mem_filter.mp this).1

/-! ## C8 — column placement and ordering -/

/-- A product whose real width (50) differs from its scaled width (30). -/
def c8prod1 : Product :=
  { id := "R1", name := "R1", scaledWidth := 30, scaledHeight := 50, x := 0, y := 0,
    moduleId := "module-1", ean := none, originalEan := none,
    realWidth := some 50, realHeight := some 50, position := 0 }

/-- A second such product, landing in the next column. -/
def c8prod2 : Product := { c8prod1 with id := "R2" }

/-- C8, counterexample.  The claim computes a group's column width as
`max(realWidth || scaledWidth)`; with `realWidth = 50`, `scaledWidth = 30`
the claimed left edge of the second column is 50.  The layout loop uses
`scaledWidth` only, so the second product is placed at `x = 30 ≠ 50`. -/
theorem C8_counterexample :
    (recalcProducts [] 150 [c8prod1, c8prod2]).map (fun p => (p.id, p.x))
        = [("R1", 0), ("R2", 30)]
      ∧ jsNum c8prod1.realWidth c8prod1.scaledWidth = 50
      ∧ (30 : ℚ) ≠ 50 := by
  refine ⟨?_, by norm_num [jsNum, c8prod1], by norm_num⟩
  norm_num +decide [recalcProducts, resolveList, assignPositions, resolvedPosition,
    lookupRecord, isDupCode, jsStr, c8prod1, c8prod2, sortedKeys, groupKey,
    layoutGroups, groupOf, placeStack, List.insertionSort, List.orderedInsert, rankLE,
    stackRank, maxQ, List.dedup, List.pwFilter]

/-- C8, amended.  After layout recomputation (with nonnegative product widths)
every product's left edge equals the sum, over all strictly lower group keys,
of that group's column width computed as `max(scaledWidth)` over the group —
the real width is **not** consulted; consequently groups are placed left to
right in ascending key order: any member of a lower-keyed group has a left
edge less than or equal to that of any member of a higher-keyed group. -/
theorem C8_theorem (ed : List ExcelProduct) (H : ℚ) (products : List Product)
    (hW : ∀ q ∈ products, 0 ≤ q.scaledWidth) :
    ∀ p ∈ recalcProducts ed H products,
      p.x = (((sortedKeys (resolveList ed products)).filter
          (fun j => decide (j < groupKey p))).map
          (groupWidthOf (resolveList ed products))).sum
      ∧ ∀ p' ∈ recalcProducts ed H products, groupKey p < groupKey p' → p.x ≤ p'.x := by
  have hchar : ∀ p ∈ recalcProducts ed H products,
      p.x = (((sortedKeys (resolveList ed products)).filter
        (fun j => decide (j < groupKey p))).map
        (groupWidthOf (resolveList ed products))).sum := by
    intro p hp
    rw [recalcProducts] at hp
    have := layoutGroups_x_char H (resolveList ed products) (sortedKeys (resolveList ed products))
      0 (sortedKeys_sorted _) (fun k hk => groupOf_ne_nil_of_mem_sortedKeys hk) p hp
    simpa using this
  intro p hp
  refine ⟨hchar p hp, fun p' hp' hlt => ?_⟩
  rw [hchar p hp, hchar p' hp']
  refine List.Sublist.sum_le_sum ?_ ?_
  · refine List.Sublist.map _ (List.monotone_filter_right _ ?_)
    intro j hj
    simp only [decide_eq_true_eq] at hj ⊢
    exact lt_trans hj hlt
  · intro a ha
    obtain ⟨j, hj, rfl⟩ := List.mem_map.mp ha
    have hjk : j ∈ sortedKeys (resolveList ed products) := List.mem_of_mem_filter hj
    exact groupWidthOf_nonneg (groupOf_ne_nil_of_mem_sortedKeys hjk)
      (resolveList_width_nonneg hW)

/-- C8, witness: the amended theorem applied to the two-column fixture; the
second product's left edge is the first column's `scaledWidth` (30). -/
theorem C8_witness :
    ({ c8prod2 with x := 30, y := 100, position := 2 } : Product).x
        = (((sortedKeys (resolveList [] [c8prod1, c8prod2])).filter
            (fun j => decide (j < groupKey
              ({ c8prod2 with x := 30, y := 100, position := 2 } : Product)))).map
            (groupWidthOf (resolveList [] [c8prod1, c8prod2]))).sum
      ∧ (0 : ℚ) ≤ 30 := by
  have hlist : recalcProducts [] 150 [c8prod1, c8prod2]
      = [{ c8prod1 with x := 0, y := 100, position := 1 },
         { c8prod2 with x := 30, y := 100, position := 2 }] := by
    norm_num +decide [recalcProducts, resolveList, assignPositions, resolvedPosition,
      lookupRecord, isDupCode, jsStr, c8prod1, c8prod2, sortedKeys, groupKey,
      layoutGroups, groupOf, placeStack, List.insertionSort, List.orderedInsert, rankLE,
      stackRank, maxQ, List.dedup, List.pwFilter]
  have hmem : ({ c8prod2 with x := 30, y := 100, position := 2 } : Product)
      ∈ recalcProducts [] 150 [c8prod1, c8prod2] := by rw [hlist]; simp
  have h := C8_theorem [] 150 [c8prod1, c8prod2] (by norm_num [c8prod1, c8prod2]) _ hmem
  exact ⟨h.1, by norm_num⟩

/-! ## C4 — position resolution order -/

/-- The closed form of the auto-assignment scan: entry `i` keeps its position
when nonzero, and otherwise receives the counter plus the number of zero
positions among the earlier entries. -/
theorem assignPositions_getElem :
    ∀ (l : List Product) (n : ℚ) (i : ℕ) (p : Product), l[i]? = some p →
      (assignPositions l n)[i]? = some
        (if p.position = 0
          then { p with position := n + ((l.take i).countP (fun q => decide (q.position = 0)) : ℕ) }
          else p)
  | [], _, i, p, hp => by simp at hp
  | p0 :: rest, n, 0, p, hp => by
    simp only [List.getElem?_cons_zero, Option.some.injEq] at hp
    subst hp
    by_cases h0 : p0.position = 0
    · simp [assignPositions, h0]
    · simp [assignPositions, h0]
  | p0 :: rest, n, i + 1, p, hp => by
    simp only [List.getElem?_cons_succ] at hp
    by_cases h0 : p0.position = 0
    · rw [assignPositions, if_pos h0, List.getElem?_cons_succ,
        assignPositions_getElem rest (n + 1) i p hp]
      have hc : ((p0 :: rest).take (i + 1)).countP (fun q => decide (q.position = 0))
          = (rest.take i).countP (fun q => decide (q.position = 0)) + 1 := by
        rw [List.take_succ_cons, List.countP_cons]
        simp [h0]
      by_cases hp0 : p.position = 0
      · rw [if_pos hp0, if_pos hp0, hc]
        have harith : (n + 1) + (((rest.take i).countP (fun q => decide (q.position = 0)) : ℕ) : ℚ)
            = n + ((((rest.take i).countP (fun q => decide (q.position = 0)) + 1 : ℕ)) : ℚ) := by
          push_cast
          ring
        rw [harith]
      · rw [if_neg hp0, if_neg hp0]
    · rw [assignPositions, if_neg h0, List.getElem?_cons_succ,
        assignPositions_getElem rest n i p hp]
      have hc : ((p0 :: rest).take (i + 1)).countP (fun q => decide (q.position = 0))
          = (rest.take i).countP (fun q => decide (q.position = 0)) := by
        rw [List.take_succ_cons, List.countP_cons]
        simp [h0]
      rw [hc]

/-- C4, counterexample.  Two divergences at concrete inputs: a product with
stored position 5 but no matching record resolves to the auto position 1 — the
stored position is never used as a fallback; and a zero-position product
scanned after a product whose record carries position 1 also receives the
integer 1, which is already in use — the auto counter does not skip used
keys. -/
theorem C4_counterexample :
    (resolveList [] [{ c3prod1 with position := 5 }]).map (fun p => p.position) = [1]
      ∧ (1 : ℚ) ≠ 5
      ∧ (resolveList
          [{ ean := "900", originalEan := some "900", module := "1", width := 50, height := 50,
             depth := 100, name := "W", position := 1, quantity := 1, duplicateIndex := 0,
             rowIndex := 1 }]
          [{ c3prod1 with ean := some "900" }, c3prod2]).map (fun p => p.position)
        = [1, 1] := by
  refine ⟨?_, by norm_num, ?_⟩ <;>
    norm_num +decide [resolveList, assignPositions, resolvedPosition, lookupRecord,
      isDupCode, jsStr, c3prod1, c3prod2]

/-- C4, amended.  In the resolution phase of every layout recomputation, a
product's effective position is the position of the first record matching its
item code / original item code when that position is nonzero; otherwise — no
matching record, **or** a matching record whose position is zero — it is the
integer `1 + (number of earlier products in array order that also resolved to
zero)`, regardless of whether that integer is already used by another
product's position, and the product's own stored position is never
consulted. -/
theorem C4_theorem (ed : List ExcelProduct) (products : List Product) (i : ℕ)
    (p : Product) (hp : products[i]? = some p) :
    (resolveList ed products)[i]? = some
      (if resolvedPosition ed p = 0
        then { p with position :=
          1 + (((products.take i).countP (fun q => decide (resolvedPosition ed q = 0)) : ℕ) : ℚ) }
        else { p with position := resolvedPosition ed p }) := by
  rw [resolveList]
  have hmap : (products.map (fun q => { q with position := resolvedPosition ed q }))[i]?
      = some { p with position := resolvedPosition ed p } := by
    rw [List.getElem?_map, hp]
    rfl
  rw [assignPositions_getElem _ 1 i _ hmap]
  have hcount : ((products.map (fun q => { q with position := resolvedPosition ed q })).take
        i).countP (fun q => decide (q.position = 0))
      = (products.take i).countP (fun q => decide (resolvedPosition ed q = 0)) := by
    rw [← List.map_take, List.countP_map]
    rfl
  by_cases h0 : resolvedPosition ed p = 0
  · rw [if_pos (show ({ p with position := resolvedPosition ed p } : Product).position = 0
        from h0), if_pos h0, hcount]
  · rw [if_neg (show ¬ ({ p with position := resolvedPosition ed p } : Product).position = 0
        from h0), if_neg h0]

/-- C4, witness: the amended theorem applied at index 1 of the
record-plus-auto fixture; the second product resolves to the auto integer 1
(a used key), its stored position playing no role. -/
theorem C4_witness :
    (resolveList
        [{ ean := "900", originalEan := some "900", module := "1", width := 50, height := 50,
           depth := 100, name := "W", position := 1, quantity := 1, duplicateIndex := 0,
           rowIndex := 1 }]
        [{ c3prod1 with ean := some "900" }, c3prod2])[1]?
      = some { c3prod2 with position := 1 } := by
  have h := C4_theorem
    [{ ean := "900", originalEan := some "900", module := "1", width := 50, height := 50,
       depth := 100, name := "W", position := 1, quantity := 1, duplicateIndex := 0,
       rowIndex := 1 }]
    [{ c3prod1 with ean := some "900" }, c3prod2] 1 c3prod2 (by simp)
  rw [h]
  norm_num +decide [resolvedPosition, lookupRecord, isDupCode, jsStr, c3prod1, c3prod2]

/-! ## Partition lemmas -/

/-- Grouping by a nodup list of keys covering every product partitions the
list: the concatenation of the groups is a permutation of the list. -/
theorem groups_flatten_perm :
    ∀ (keys : List ℤ) (l : List Product), keys.Nodup →
      (∀ p ∈ l, groupKey p ∈ keys) →
      List.Perm ((keys.map (fun k => groupOf l k)).flatten) l
  | [], l, _, hcover => by
    have hnil : l = [] :=
      List.eq_nil_iff_forall_not_mem.mpr (fun p hp => by simpa using hcover p hp)
    simp [hnil]
  | k :: ks, l, hnd, hcover => by
    rw [List.map_cons, List.flatten_cons]
    have hk_not : k ∉ ks := (List.nodup_cons.mp hnd).1
    have hnd' : ks.Nodup := (List.nodup_cons.mp hnd).2
    have hgroups : ∀ k' ∈ ks,
        groupOf l k' = groupOf (l.filter (fun p => !decide (groupKey p = k))) k' := by
      intro k' hk'
      have hne : k' ≠ k := fun h => hk_not (h ▸ hk')
      rw [groupOf, groupOf, List.filter_filter]
      refine (List.filter_congr (fun a _ => ?_)).symm
      by_cases ha : groupKey a = k'
      · have hnk : ¬ (groupKey a = k) := fun h => hne (ha.symm.trans h)
        simp [ha, hnk, hne]
      · simp [ha]
    have hcover' : ∀ p ∈ l.filter (fun p => !decide (groupKey p = k)), groupKey p ∈ ks := by
      intro p hp
      have hmem := List.mem_filter.mp hp
      have hne : ¬ (groupKey p = k) := by simpa using hmem.2
      rcases List.mem_cons.mp (hcover p hmem.1) with h | h
      · exact absurd h hne
      · exact h
    have hmapeq : ks.map (fun k' => groupOf l k')
        = ks.map (fun k' => groupOf (l.filter (fun p => !decide (groupKey p = k))) k') :=
      List.map_congr_left hgroups
    have hperm' := groups_flatten_perm ks (l.filter (fun p => !decide (groupKey p = k)))
      hnd' hcover'
    rw [hmapeq] at *
    refine List.Perm.trans (List.Perm.append_left _ hperm') ?_
    exact List.filter_append_perm _ l

/-- The keys of `sortedKeys l` cover every product and are nodup, so the
grouped concatenation is a permutation of the products. -/
theorem sortedKeys_groups_perm (l : List Product) :
    List.Perm (((sortedKeys l).map (fun k => groupOf l k)).flatten) l := by
  refine groups_flatten_perm _ _ ?_ ?_
  · exact ((List.perm_insertionSort _ _).nodup_iff).mpr (List.nodup_dedup _)
  · intro p hp
    exact sortedKeys_mem_iff.mpr ⟨p, hp, rfl⟩

/-- In an association list with nodup keys, any member pair is the lookup
result of its key. -/
theorem lookup_eq_of_mem_of_nodup {β : Type} (l : List (String × β))
    (hnd : (l.map Prod.fst).Nodup) (a : String) (b : β) (h : (a, b) ∈ l) :
    l.lookup a = some b := by
  induction l with
  | nil => simp at h
  | cons e es ih =>
    rw [List.map_cons] at hnd
    obtain ⟨hhead, htail⟩ := List.nodup_cons.mp hnd
    rcases List.mem_cons.mp h with h | h
    · rw [← h]
      simp [List.lookup_cons]
    · have hne : a ≠ e.1 := by
        intro heq
        exact hhead (heq ▸ List.mem_map.mpr ⟨(a, b), h, rfl⟩)
      rw [List.lookup_cons, beq_false_of_ne hne]
      exact ih htail h

/-! ## C9 — depth capacity -/

/-- `excelProduct?.depth || 100` — the member depth used by the capacity
calculator: the matched record's depth, defaulting to 100 when there is no
match or the matched depth is zero. -/
def matchedDepth (excelData : List ExcelProduct) (p : Product) : ℚ :=
  jsNum ((excelData.find? (depthMatch p)).map (fun ep => ep.depth)) 100

/-- With a positive module depth and nonnegative record depths, each member's
contribution is exactly `floor(module.depth / matchedDepth)`. -/
theorem depthContrib_eq {md : Module} {excelData : List ExcelProduct}
    (hdep : 0 < md.depth) (hrec : ∀ rec ∈ excelData, 0 ≤ rec.depth) (p : Product) :
    depthContrib md (some excelData) p = ⌊md.depth / matchedDepth excelData p⌋ := by
  rw [depthContrib]
  have hpos : 0 < matchedDepth excelData p := by
    rw [matchedDepth]
    cases hfind : excelData.find? (depthMatch p) with
    | none => norm_num [jsNum]
    | some ep =>
      have hmem := List.mem_of_find?_eq_some hfind
      have hd := hrec ep hmem
      by_cases h0 : ep.depth = 0
      · norm_num [jsNum, h0]
      · have hlt : 0 < ep.depth := lt_of_le_of_ne hd (Ne.symm h0)
        simpa [jsNum, h0] using hlt
  rw [if_pos ⟨hpos, ne_of_gt hdep⟩]
  rfl

theorem c9_capacity_keys_nodup (md : Module) (excelData : List ExcelProduct)
    (hids : (md.products.map (fun p => p.id)).Nodup) :
    ((calculateDepthCapacity md (some excelData)).map Prod.fst).Nodup := by
  by_cases hd : md.depth = 0
  · simp [calculateDepthCapacity, hd]
  · rw [calculateDepthCapacity, if_neg hd, List.map_flatten, List.map_map]
    have hmapeq : ∀ k : ℤ,
        ((groupOf md.products k).enum.map (fun iq =>
            (iq.2.id,
              ({ capacity :=
                    ((groupOf md.products k).map (depthContrib md (some excelData))).sum,
                 isVisible := decide (iq.1 = 0),
                 x := (groupBox (groupOf md.products k)).1,
                 width := (groupBox (groupOf md.products k)).2 } : CapacityInfo)))).map
            Prod.fst
          = (groupOf md.products k).map (fun p => p.id) := by
      intro k
      rw [List.map_map]
      have hstep : (groupOf md.products k).enum.map ((fun p : Product => p.id) ∘ Prod.snd)
          = (groupOf md.products k).map (fun p => p.id) := by
        rw [← List.map_map, List.enum_map_snd]
      rw [← hstep]
      exact List.map_congr_left (fun iq _ => rfl)
    have houter : (sortedKeys md.products).map
        (List.map Prod.fst ∘ fun k =>
          let group := groupOf md.products k
          let totalCapacity := (group.map (depthContrib md (some excelData))).sum
          let box := groupBox group
          group.enum.map (fun iq =>
            (iq.2.id, ({ capacity := totalCapacity, isVisible := decide (iq.1 = 0),
                         x := box.1, width := box.2 } : CapacityInfo))))
        = (sortedKeys md.products).map
            (fun k => (groupOf md.products k).map (fun p => p.id)) := by
      refine List.map_congr_left (fun k _ => ?_)
      exact hmapeq k
    rw [houter]
    have hperm : List.Perm
        (((sortedKeys md.products).map (fun k =>
          (groupOf md.products k).map (fun p => p.id))).flatten)
        (md.products.map (fun p => p.id)) := by
      have h1 := (sortedKeys_groups_perm md.products).map (fun p : Product => p.id)
      rw [List.map_flatten, List.map_map] at h1
      exact h1
    exact (hperm.nodup_iff).mpr hids

/-- C9, claim theorem.  For a module with positive depth, nonnegative record
depths and distinct product ids, the capacity calculator assigns every member
of a group (products sharing the integer part of their stored position) the
same capacity: the sum over the group's members of
`floor(module.depth / memberDepth)` with `memberDepth` the matched record
depth or the default 100; and it flags `isVisible` exactly for the group's
first member. -/
theorem C9_theorem (md : Module) (excelData : List ExcelProduct)
    (hdep : 0 < md.depth) (hrec : ∀ rec ∈ excelData, 0 ≤ rec.depth)
    (hids : (md.products.map (fun p => p.id)).Nodup) :
    ∀ p ∈ md.products,
      ∃ info : CapacityInfo,
        (calculateDepthCapacity md (some excelData)).lookup p.id = some info
          ∧ info.capacity = ((groupOf md.products (groupKey p)).map
              (fun q => ⌊md.depth / matchedDepth excelData q⌋)).sum
          ∧ (info.isVisible = true ↔ (groupOf md.products (groupKey p)).head? = some p) := by
  intro p hp
  have hd : ¬ (md.depth = 0) := ne_of_gt hdep
  have hpgrp : p ∈ groupOf md.products (groupKey p) :=
    List.mem_filter.mpr ⟨hp, by simp⟩
  obtain ⟨j, hj, hpj⟩ := List.mem_iff_getElem.mp hpgrp
  set group := groupOf md.products (groupKey p) with hgroup
  set info : CapacityInfo :=
    { capacity := (group.map (depthContrib md (some excelData))).sum,
      isVisible := decide (j = 0), x := (groupBox group).1,
      width := (groupBox group).2 } with hinfo
  have hentry : (p.id, info) ∈ calculateDepthCapacity md (some excelData) := by
    rw [calculateDepthCapacity, if_neg hd]
    rw [List.mem_flatten]
    refine ⟨group.enum.map (fun iq =>
      (iq.2.id,
        ({ capacity := (group.map (depthContrib md (some excelData))).sum,
           isVisible := decide (iq.1 = 0), x := (groupBox group).1,
           width := (groupBox group).2 } : CapacityInfo))), ?_, ?_⟩
    · rw [List.mem_map]
      exact ⟨groupKey p, sortedKeys_mem_iff.mpr ⟨p, hp, rfl⟩, rfl⟩
    · rw [List.mem_map]
      refine ⟨(j, p), ?_, by rw [hinfo]⟩
      have hjlen : j < group.enum.length := by simpa using hj
      have : group.enum[j] = (j, group[j]) := List.getElem_enum ..
      rw [hpj] at this
      exact this ▸ List.getElem_mem hjlen
  refine ⟨info, ?_, ?_, ?_⟩
  · exact lookup_eq_of_mem_of_nodup _ (c9_capacity_keys_nodup md excelData hids) _ _ hentry
  · rw [hinfo]
    exact List.map_congr_left (fun q _ => depthContrib_eq hdep hrec q) ▸ rfl
  · rw [hinfo]
    simp only [decide_eq_true_eq]
    have hnodup : group.Nodup := by
      have hsub : List.Sublist group md.products := List.filter_sublist _
      exact (hsub.map (fun p => p.id)).nodup hids |>.of_map _
    constructor
    · intro hj0
      subst hj0
      rw [← hpj]
      exact (List.head?_eq_getElem? group).trans (by rw [List.getElem?_eq_getElem hj])
    · intro hhead
      have h0len : 0 < group.length := List.length_pos_of_mem hpgrp
      have hget0 : group[0] = p := by
        have := List.head?_eq_getElem? group
        rw [hhead, List.getElem?_eq_getElem h0len] at this
        exact (Option.some.injEq _ _).mp this.symm
      have hj0 : (⟨j, hj⟩ : Fin group.length) = ⟨0, h0len⟩ := by
        refine (List.Nodup.get_inj_iff hnodup).mp ?_
        rw [List.get_eq_getElem, List.get_eq_getElem]
        rw [hpj, hget0]
      simpa using hj0

/-- Bottom product of the depth scenario (position 1, depth 100 via record). -/
def c9prodA : Product :=
  { id := "A", name := "A", scaledWidth := 50, scaledHeight := 50, x := 0, y := 100,
    moduleId := "module-1", ean := some "111", originalEan := none,
    realWidth := some 50, realHeight := some 50, position := 1 }

/-- Stacked product of the depth scenario (position 1.1). -/
def c9prodB : Product := { c9prodA with id := "B", ean := some "222", y := 50, position := 11/10 }

/-- Record for the bottom product, depth 100. -/
def c9recA : ExcelProduct :=
  { ean := "111", originalEan := some "111", module := "1", width := 50, height := 50,
    depth := 100, name := "A", position := 1, quantity := 1, duplicateIndex := 0, rowIndex := 1 }

/-- Record for the stacked product, depth 100. -/
def c9recB : ExcelProduct :=
  { c9recA with
    ean := "222"
    originalEan := some "222"
    position := 11/10 }

/-- The 200×150 module with depth 300 holding the stacked pair. -/
def c9module : Module :=
  { id := "module-1", name := "M", width := 200, height := 150, depth := 300, x := 0, y := 0,
    products := [c9prodA, c9prodB] }

/-- C9, witness: in a module of depth 300 with two stacked products of record
depth 100 the claim theorem yields capacity `2 × floor(300/100) = 6` for the
bottom product, with its label visible. -/
theorem C9_witness :
    ∃ info : CapacityInfo,
      (calculateDepthCapacity c9module (some [c9recA, c9recB])).lookup "A" = some info
        ∧ info.capacity = 6 ∧ info.isVisible = true := by
  obtain ⟨info, hlook, hcap, hvis⟩ := C9_theorem c9module [c9recA, c9recB]
    (by norm_num [c9module])
    (by intro rec hrec
        rcases List.mem_cons.mp hrec with h | h
        · rw [h]; norm_num [c9recA]
        · rcases List.mem_cons.mp h with h | h
          · rw [h]; norm_num [c9recB, c9recA]
          · simp at h)
    (by norm_num +decide [c9module, c9prodA, c9prodB])
    c9prodA (by simp [c9module])
  refine ⟨info, ?_, ?_, ?_⟩
  · rw [← hlook]
    rfl
  · rw [hcap]
    norm_num +decide [groupOf, groupKey, c9module, c9prodA, c9prodB, matchedDepth,
      depthMatch, jsNum, c9recA, c9recB, Int.floor_eq_iff]
  · rw [hvis]
    norm_num +decide [groupOf, groupKey, c9module, c9prodA, c9prodB]

/-! ## C6 — insert-at-position renumbering -/

/-- The record fields the renumber lookups read; position updates preserve
them. -/
def keysEq (a b : ExcelProduct) : Prop :=
  a.ean = b.ean ∧ a.originalEan = b.originalEan ∧ a.module = b.module

theorem keysEq_refl (a : ExcelProduct) : keysEq a a := ⟨rfl, rfl, rfl⟩

theorem forall₂_keysEq_refl (l : List ExcelProduct) : List.Forall₂ keysEq l l :=
  List.forall₂_same.mpr (fun a _ => keysEq_refl a)

theorem forall₂_keysEq_trans :
    ∀ {l₁ l₂ l₃ : List ExcelProduct}, List.Forall₂ keysEq l₁ l₂ →
      List.Forall₂ keysEq l₂ l₃ → List.Forall₂ keysEq l₁ l₃ := by
  intro l₁ l₂ l₃ h12
  induction h12 generalizing l₃ with
  | nil => intro h; cases h; exact List.Forall₂.nil
  | cons hab htail ih =>
    intro h23
    cases h23 with
    | cons hbc htail' =>
      exact List.Forall₂.cons
        ⟨hab.1.trans hbc.1, hab.2.1.trans hbc.2.1, hab.2.2.trans hbc.2.2⟩ (ih htail')

/-- `findIdx?` agrees (from any start index) on pointwise related lists whose
predicates agree. -/
theorem findIdx?_congr_forall₂ {α β : Type} {p : α → Bool} {q : β → Bool} :
    ∀ {l₁ : List α} {l₂ : List β}, List.Forall₂ (fun a b => p a = q b) l₁ l₂ →
      ∀ i : ℕ, l₁.findIdx? p i = l₂.findIdx? q i := by
  intro l₁ l₂ h
  induction h with
  | nil => intro i; rfl
  | @cons a b t₁ t₂ hab htail ih =>
    intro i
    show (if p a then some i else t₁.findIdx? p (i + 1))
        = (if q b then some i else t₂.findIdx? q (i + 1))
    rw [hab, ih (i + 1)]

/-- The renumber lookup sees only the key fields, so it is invariant under
position updates. -/
theorem recordMatchIdx_congr (mn : String) (p : Product) :
    ∀ {l₁ l₂ : List ExcelProduct}, List.Forall₂ keysEq l₁ l₂ →
      recordMatchIdx mn p l₁ = recordMatchIdx mn p l₂ := by
  intro l₁ l₂ h
  simp only [recordMatchIdx]
  refine findIdx?_congr_forall₂ (h.imp ?_) 0
  intro a b hab
  rw [hab.1, hab.2.1, hab.2.2]

theorem setRecordPosition_keysEq (ed : List ExcelProduct) (j : ℕ) (v : ℚ) :
    List.Forall₂ keysEq (setRecordPosition ed j v) ed := by
  rw [setRecordPosition]
  cases hj : ed[j]? with
  | none => exact forall₂_keysEq_refl ed
  | some r =>
    rw [List.forall₂_iff_get]
    refine ⟨by simp, fun i h1 h2 => ?_⟩
    by_cases hij : j = i
    · subst hij
      have : (ed.set j { r with position := v }).get ⟨j, h1⟩ = { r with position := v } := by
        rw [List.get_eq_getElem, List.getElem_set_self]
      rw [this]
      have hr : ed[j] = r := by
        have h' := List.getElem?_eq_getElem h2
        rw [hj] at h'
        exact ((Option.some.injEq _ _).mp h').symm
      have : ed.get ⟨j, h2⟩ = r := by rw [List.get_eq_getElem, hr]
      rw [this]
      exact ⟨rfl, rfl, rfl⟩
    · have h2' : i < ed.length := by simpa using h1
      have hset : (ed.set j { r with position := v }).get ⟨i, h1⟩ = ed.get ⟨i, h2'⟩ := by
        rw [List.get_eq_getElem, List.get_eq_getElem, List.getElem_set]
        exact if_neg hij
      rw [hset]
      exact keysEq_refl _

/-- The fold step of the renumber loop. -/
def renumberStep (mn : String) (acc : List ExcelProduct) (iq : ℕ × Product) :
    List ExcelProduct :=
  match recordMatchIdx mn iq.2 acc with
  | some j => setRecordPosition acc j ((iq.1 : ℚ) + 1)
  | none => acc

theorem renumberRecords_eq_foldl (mn : String) (products : List Product)
    (ed : List ExcelProduct) :
    renumberRecords mn products ed = products.enum.foldl (renumberStep mn) ed := rfl

theorem renumberStep_keysEq (mn : String) (acc : List ExcelProduct) (iq : ℕ × Product) :
    List.Forall₂ keysEq (renumberStep mn acc iq) acc := by
  rw [renumberStep]
  cases recordMatchIdx mn iq.2 acc with
  | some j => exact setRecordPosition_keysEq acc j _
  | none => exact forall₂_keysEq_refl acc

theorem renumber_fold_keysEq (mn : String) (ed : List ExcelProduct) :
    ∀ (l : List (ℕ × Product)) (acc : List ExcelProduct),
      List.Forall₂ keysEq acc ed →
      List.Forall₂ keysEq (l.foldl (renumberStep mn) acc) ed
  | [], acc, h => h
  | iq :: rest, acc, h => by
    rw [List.foldl_cons]
    exact renumber_fold_keysEq mn ed rest _
      (forall₂_keysEq_trans (renumberStep_keysEq mn acc iq) h)

theorem recordMatchIdx_lt_length {mn : String} {p : Product} {l : List ExcelProduct} {j : ℕ}
    (h : recordMatchIdx mn p l = some j) : j < l.length := by
  simp only [recordMatchIdx] at h
  obtain ⟨hlt, -⟩ := List.findIdx?_eq_some_iff_getElem.mp h
  exact hlt

theorem setRecordPosition_getElem_ne (acc : List ExcelProduct) {j j' : ℕ} (v : ℚ)
    (hne : j' ≠ j) : (setRecordPosition acc j' v)[j]? = acc[j]? := by
  rw [setRecordPosition]
  cases acc[j']? with
  | none => rfl
  | some r => exact List.getElem?_set_ne hne

theorem renumber_fold_skip (mn : String) (ed : List ExcelProduct) :
    ∀ (l : List (ℕ × Product)) (acc : List ExcelProduct) (j : ℕ),
      List.Forall₂ keysEq acc ed →
      (∀ iq ∈ l, recordMatchIdx mn iq.2 ed ≠ some j) →
      (l.foldl (renumberStep mn) acc)[j]? = acc[j]?
  | [], acc, j, _, _ => rfl
  | iq :: rest, acc, j, hkeys, hnone => by
    rw [List.foldl_cons]
    have hstepkeys := forall₂_keysEq_trans (renumberStep_keysEq mn acc iq) hkeys
    have htail := renumber_fold_skip mn ed rest (renumberStep mn acc iq) j hstepkeys
      (fun iq' h => hnone iq' (List.mem_cons_of_mem _ h))
    rw [htail, renumberStep]
    cases hM : recordMatchIdx mn iq.2 acc with
    | none => rfl
    | some j' =>
      have hMed : recordMatchIdx mn iq.2 ed = some j' :=
        (recordMatchIdx_congr mn iq.2 hkeys).symm.trans hM
      have hne : j' ≠ j := fun h => hnone iq (List.mem_cons_self ..) (h ▸ hMed)
      exact setRecordPosition_getElem_ne acc _ hne

theorem renumber_fold_write (mn : String) (ed : List ExcelProduct) :
    ∀ (l : List (ℕ × Product)) (acc : List ExcelProduct) (i : ℕ) (p : Product) (j : ℕ),
      List.Forall₂ keysEq acc ed →
      (i, p) ∈ l →
      recordMatchIdx mn p ed = some j →
      (∀ iq ∈ l, iq ≠ (i, p) → recordMatchIdx mn iq.2 ed ≠ some j) →
      ((l.foldl (renumberStep mn) acc)[j]?).map (fun rec => rec.position)
        = some ((i : ℚ) + 1)
  | [], acc, i, p, j, _, hmem, _, _ => by simp at hmem
  | iq :: rest, acc, i, p, j, hkeys, hmem, hj, huniq => by
    rw [List.foldl_cons]
    have hstepkeys := forall₂_keysEq_trans (renumberStep_keysEq mn acc iq) hkeys
    by_cases hiq : iq = (i, p)
    · subst hiq
      have hMacc : recordMatchIdx mn p acc = some j :=
        (recordMatchIdx_congr mn p hkeys).trans hj
      have hjlt : j < acc.length := recordMatchIdx_lt_length hMacc
      have hstep : renumberStep mn acc (i, p) = setRecordPosition acc j ((i : ℚ) + 1) := by
        rw [renumberStep, hMacc]
      by_cases hrest : (i, p) ∈ rest
      · rw [hstep] at hstepkeys ⊢
        exact renumber_fold_write mn ed rest _ i p j hstepkeys hrest hj
          (fun iq' h hne => huniq iq' (List.mem_cons_of_mem _ h) hne)
      · have hskip := renumber_fold_skip mn ed rest (renumberStep mn acc (i, p)) j
          hstepkeys
          (fun iq' h => by
            have hne : iq' ≠ (i, p) := fun heq => hrest (heq ▸ h)
            exact huniq iq' (List.mem_cons_of_mem _ h) hne)
        rw [hskip, hstep, setRecordPosition]
        cases hacc : acc[j]? with
        | none => exact absurd hacc (by simp [List.getElem?_eq_getElem hjlt])
        | some r =>
          rw [List.getElem?_set_self (by simpa using hjlt)]
          rfl
    · have hrest : (i, p) ∈ rest := by
        rcases List.mem_cons.mp hmem with h | h
        · exact absurd h.symm hiq
        · exact h
      exact renumber_fold_write mn ed rest _ i p j hstepkeys hrest hj
        (fun iq' h hne => huniq iq' (List.mem_cons_of_mem _ h) hne)

/-- First product of the 3-product insert scenario. -/
def c6prodA : Product :=
  { id := "A", name := "A", scaledWidth := 50, scaledHeight := 50, x := 0, y := 0,
    moduleId := "module-1", ean := some "111", originalEan := none,
    realWidth := some 50, realHeight := some 50, position := 1 }

/-- Second product. -/
def c6prodB : Product := { c6prodA with id := "B", ean := some "222", position := 2 }

/-- Third product. -/
def c6prodC : Product := { c6prodA with id := "C", ean := some "333", position := 3 }

/-- Record of the first product (module "1", position 1). -/
def c6recA : ExcelProduct :=
  { ean := "111", originalEan := some "111", module := "1", width := 50, height := 50,
    depth := 100, name := "A", position := 1, quantity := 1, duplicateIndex := 0, rowIndex := 1 }

/-- Record of the second product. -/
def c6recB : ExcelProduct :=
  { c6recA with
    ean := "222"
    originalEan := some "222"
    position := 2 }

/-- Record of the third product. -/
def c6recC : ExcelProduct :=
  { c6recA with
    ean := "333"
    originalEan := some "333"
    position := 3 }

/-- The 3-product module of the insert scenario. -/
def c6module : Module :=
  { id := "module-1", name := "M", width := 200, height := 150, depth := 300, x := 0, y := 0,
    products := [c6prodA, c6prodB, c6prodC] }

/-- The state of the insert scenario. -/
def c6state : PlanState := { modules := [c6module], excelData := some [c6recA, c6recB, c6recC] }

/-- C6, counterexample.  The claim says the dragged product is reinserted *at
the target index*: moving the product at array index 0 to index 2 should give
array order `[B, C, A]`.  The reducer subtracts one from a forward hover index
before reinserting, so the result is `[B, A, C]` — the dragged product lands
at index 1, not 2.  (The renumbering itself does follow the new array order:
the records end at positions 2, 1, 3 for A, B, C, i.e. 1, 2, 3 in array
order.) -/
theorem C6_counterexample :
    ((insertProductAtPosition c6state "module-1" 0 2).modules.map
        (fun m => m.products.map (fun p => p.id)))
      = [["B", "A", "C"]]
      ∧ (["B", "A", "C"] : List String) ≠ ["B", "C", "A"]
      ∧ (insertProductAtPosition c6state "module-1" 0 2).excelData
        = some [{ c6recA with position := 2 }, { c6recB with position := 1 },
                { c6recC with position := 3 }] := by
  refine ⟨?_, by simp, ?_⟩ <;>
    norm_num +decide [insertProductAtPosition, c6state, c6module, c6prodA, c6prodB, c6prodC,
      c6recA, c6recB, c6recC, renumberRecords, recordMatchIdx, setRecordPosition, jsStr,
      recalculateLayout, recalcProducts, resolveList, assignPositions, resolvedPosition,
      lookupRecord, isDupCode, sortedKeys, groupKey, layoutGroups, groupOf, placeStack,
      List.insertionSort, List.orderedInsert, rankLE, stackRank, maxQ, List.dedup,
      List.pwFilter, List.insertIdx, List.enum, List.enumFrom, List.foldl]

/-- C6, amended.  For a same-module insert-mode drop with valid indices, the
dragged product is removed and reinserted at the target index **adjusted down
by one when the target index exceeds the drag index**; afterwards the module's
records are renumbered by the *new* array order: whenever the product at new
index `i` is the unique product matching record `j`, that record's position
becomes the 1-based index `i + 1`. -/
theorem C6_theorem (s : PlanState) (moduleId : String) (dragIndex hoverIndex : ℕ)
    (md : Module) (ed : List ExcelProduct) (dragged : Product)
    (hfind : s.modules.find? (fun m => decide (m.id = moduleId)) = some md)
    (hed : s.excelData = some ed)
    (hdrag : md.products[dragIndex]? = some dragged)
    (hhover : hoverIndex < md.products.length) :
    ((md.products.eraseIdx dragIndex).insertIdx
        (if dragIndex < hoverIndex then hoverIndex - 1 else hoverIndex) dragged)[
        (if dragIndex < hoverIndex then hoverIndex - 1 else hoverIndex)]? = some dragged
    ∧ ∃ ed', (insertProductAtPosition s moduleId dragIndex hoverIndex).excelData = some ed'
      ∧ ∀ (i j : ℕ) (p : Product),
          ((md.products.eraseIdx dragIndex).insertIdx
            (if dragIndex < hoverIndex then hoverIndex - 1 else hoverIndex) dragged)[i]?
            = some p →
          recordMatchIdx (jsReplace moduleId "module-" "") p ed = some j →
          (∀ (i' : ℕ) (p' : Product), i' ≠ i →
            ((md.products.eraseIdx dragIndex).insertIdx
              (if dragIndex < hoverIndex then hoverIndex - 1 else hoverIndex) dragged)[i']?
              = some p' →
            recordMatchIdx (jsReplace moduleId "module-" "") p' ed ≠ some j) →
          (ed'[j]?).map (fun rec => rec.position) = some ((i : ℚ) + 1) := by
  have hdlt : dragIndex < md.products.length := by
    by_contra h
    rw [List.getElem?_eq_none (le_of_not_lt h)] at hdrag
    exact absurd hdrag (by simp)
  have hlen : (md.products.eraseIdx dragIndex).length = md.products.length - 1 := by
    rw [List.length_eraseIdx]
    simp [hdlt]
  have hadj : (if dragIndex < hoverIndex then hoverIndex - 1 else hoverIndex)
      ≤ (md.products.eraseIdx dragIndex).length := by
    rw [hlen]
    by_cases h : dragIndex < hoverIndex
    · rw [if_pos h]
      omega
    · rw [if_neg h]
      omega
  have hnoapp : ¬ ((md.products.eraseIdx dragIndex).length
      < (if dragIndex < hoverIndex then hoverIndex - 1 else hoverIndex)) :=
    not_lt_of_le hadj
  constructor
  · rw [List.getElem?_eq_getElem
      (by rw [List.length_insertIdx _ _ hadj]; omega)]
    rw [List.getElem_insertIdx_self _ _ _ hadj]
  · rw [insertProductAtPosition, hfind]
    simp only [hdrag, hed, hnoapp, if_false]
    refine ⟨_, rfl, ?_⟩
    intro i j p hi hj huniq
    rw [renumberRecords_eq_foldl]
    refine renumber_fold_write _ ed _ ed i p j (forall₂_keysEq_refl ed) ?_ hj ?_
    · exact List.mem_enum_iff_getElem?.mpr hi
    · intro iq hiq hne
      have hget := List.mem_enum_iff_getElem?.mp hiq
      by_cases hfst : iq.1 = i
      · exfalso
        apply hne
        have : p = iq.2 := by
          rw [hfst] at hget
          rw [hget] at hi
          exact ((Option.some.injEq _ _).mp hi).symm
        rw [← hfst, this]
      · exact huniq iq.1 iq.2 hfst hget

/-- C6, witness: the amended theorem applied to the 3-product scenario (drag
index 0 to hover index 2): product `A` lands at new index 1 and its record
(index 0 of the record list) is renumbered to position 2. -/
theorem C6_witness :
    ∃ ed', (insertProductAtPosition c6state "module-1" 0 2).excelData = some ed'
      ∧ (ed'[0]?).map (fun rec => rec.position) = some 2 := by
  obtain ⟨hins, ed', hed', hall⟩ := C6_theorem c6state "module-1" 0 2 c6module
    [c6recA, c6recB, c6recC] c6prodA
    (by norm_num +decide [c6state, c6module]) rfl
    (by norm_num +decide [c6module]) (by norm_num [c6module])
  refine ⟨ed', hed', ?_⟩
  have hif : (if 0 < 2 then 2 - 1 else 2 : ℕ) = 1 := by norm_num
  rw [hif] at hall
  have h1 : ((1 : ℕ) : ℚ) + 1 = 2 := by norm_num
  rw [← h1]
  refine hall 1 0 c6prodA ?_ ?_ ?_
  · norm_num +decide [c6module, c6prodA, c6prodB, c6prodC, List.insertIdx]
  · norm_num +decide [recordMatchIdx, c6prodA, c6recA, c6recB, c6recC, jsStr,
      jsReplace, replaceFirst, matchesAt, List.findIdx?]
  · intro i' p' hne hget hmatch
    have hrep : jsReplace "module-1" "module-" "" = "1" := by decide
    rw [hrep] at hmatch
    have hlen3 : ((c6module.products.eraseIdx 0).insertIdx 1 c6prodA).length = 3 := by
      norm_num +decide [c6module, c6prodA, c6prodB, c6prodC, List.insertIdx]
    have hi3 : i' < 3 := by
      by_contra h
      rw [List.getElem?_eq_none (by rw [hlen3]; omega)] at hget
      exact absurd hget (by simp)
    interval_cases i'
    · have hp' : p' = c6prodB := by
        have : ((c6module.products.eraseIdx 0).insertIdx 1 c6prodA)[0]? = some c6prodB := by
          norm_num +decide [c6module, c6prodA, c6prodB, c6prodC, List.insertIdx]
        rw [this] at hget
        exact ((Option.some.injEq _ _).mp hget).symm
      rw [hp'] at hmatch
      have : recordMatchIdx "1" c6prodB [c6recA, c6recB, c6recC] = some 1 := by
        norm_num +decide [recordMatchIdx, c6prodB, c6prodA, c6recA, c6recB, c6recC, jsStr,
          List.findIdx?]
      rw [this] at hmatch
      exact absurd ((Option.some.injEq _ _).mp hmatch) (by norm_num)
    · exact absurd rfl hne
    · have hp' : p' = c6prodC := by
        have : ((c6module.products.eraseIdx 0).insertIdx 1 c6prodA)[2]? = some c6prodC := by
          norm_num +decide [c6module, c6prodA, c6prodB, c6prodC, List.insertIdx]
        rw [this] at hget
        exact ((Option.some.injEq _ _).mp hget).symm
      rw [hp'] at hmatch
      have : recordMatchIdx "1" c6prodC [c6recA, c6recB, c6recC] = some 2 := by
        norm_num +decide [recordMatchIdx, c6prodC, c6prodA, c6recA, c6recB, c6recC, jsStr,
          List.findIdx?]
      rw [this] at hmatch
      exact absurd ((Option.some.injEq _ _).mp hmatch) (by norm_num)

/-! ## Stack placement characterization -/

theorem placeStack_length (H cx : ℚ) :
    ∀ (l : List Product) (sb : ℚ), (placeStack H cx l sb).length = l.length
  | [], _ => rfl
  | p :: rest, sb => by
    rw [placeStack, List.length_cons, List.length_cons,
      placeStack_length H cx rest (sb + p.scaledHeight)]

/-- Closed form of the vertical placement: entry `i` keeps all fields but is
re-anchored at `x = cx` and `y = max 0 (H − sb − prefix heights − own
height)`. -/
theorem placeStack_getElem (H cx : ℚ) :
    ∀ (l : List Product) (sb : ℚ) (i : ℕ) (p : Product), l[i]? = some p →
      (placeStack H cx l sb)[i]? = some
        { p with
          x := cx
          y := max 0 (H - sb - ((l.take i).map (fun q => q.scaledHeight)).sum
            - p.scaledHeight) }
  | [], _, i, p, hp => by simp at hp
  | p0 :: rest, sb, 0, p, hp => by
    simp only [List.getElem?_cons_zero, Option.some.injEq] at hp
    subst hp
    rw [placeStack]
    simp
  | p0 :: rest, sb, i + 1, p, hp => by
    simp only [List.getElem?_cons_succ] at hp
    rw [placeStack, List.getElem?_cons_succ,
      placeStack_getElem H cx rest (sb + p0.scaledHeight) i p hp]
    rw [List.take_succ_cons, List.map_cons, List.sum_cons]
    ring_nf

/-- Without vertical overflow the clamped stack is an exact zero-gap chain:
the bottom member's bottom edge is the module bottom, and each member's bottom
edge is the previous member's top edge. -/
theorem placeStack_chain (H cx : ℚ) (l : List Product)
    (hh : ∀ q ∈ l, 0 ≤ q.scaledHeight)
    (hsum : (l.map (fun q => q.scaledHeight)).sum ≤ H) :
    (∀ p0, (placeStack H cx l 0).head? = some p0 → p0.y + p0.scaledHeight = H)
      ∧ ∀ (i : ℕ) (p q : Product),
          (placeStack H cx l 0)[i]? = some p → (placeStack H cx l 0)[i + 1]? = some q →
          q.y + q.scaledHeight = p.y := by
  have hts_nonneg : ∀ a ∈ l.map (fun q => q.scaledHeight), 0 ≤ a := by
    intro a ha
    obtain ⟨q, hq, rfl⟩ := List.mem_map.mp ha
    exact hh q hq
  have htake_le : ∀ i : ℕ, ((l.map (fun q => q.scaledHeight)).take i).sum ≤ H :=
    fun i => le_trans (List.Sublist.sum_le_sum (List.take_sublist _ _) hts_nonneg) hsum
  have htake_succ : ∀ (i : ℕ) (hi : i < l.length),
      ((l.map (fun q => q.scaledHeight)).take (i + 1)).sum
        = ((l.map (fun q => q.scaledHeight)).take i).sum
          + (l.get ⟨i, hi⟩).scaledHeight := by
    intro i hi
    have hi2 : i < (l.map (fun q => q.scaledHeight)).length := by simpa using hi
    rw [List.take_succ, List.getElem?_eq_getElem hi2, List.getElem_map]
    simp [List.get_eq_getElem]
  have hval : ∀ (i : ℕ) (p : Product), (placeStack H cx l 0)[i]? = some p →
      ∃ hi : i < l.length,
        p.scaledHeight = (l.get ⟨i, hi⟩).scaledHeight
          ∧ p.y = H - ((l.map (fun q => q.scaledHeight)).take (i + 1)).sum := by
    intro i p hp
    have hi : i < l.length := by
      obtain ⟨hlt, -⟩ := List.getElem?_eq_some_iff.mp hp
      rwa [placeStack_length] at hlt
    have hgot := placeStack_getElem H cx l 0 i (l.get ⟨i, hi⟩)
      (by rw [List.get_eq_getElem]; exact List.getElem?_eq_getElem hi)
    rw [hp] at hgot
    have hp_eq := (Option.some.injEq _ _).mp hgot
    have hbound : ((l.map (fun q => q.scaledHeight)).take i).sum
        + (l.get ⟨i, hi⟩).scaledHeight ≤ H := by
      rw [← htake_succ i hi]
      exact htake_le (i + 1)
    refine ⟨hi, by rw [hp_eq], ?_⟩
    rw [hp_eq]
    show max 0 (H - 0 - ((l.take i).map (fun q => q.scaledHeight)).sum
        - (l.get ⟨i, hi⟩).scaledHeight)
      = H - ((l.map (fun q => q.scaledHeight)).take (i + 1)).sum
    rw [List.map_take, htake_succ i hi, max_eq_right (by linarith)]
    ring
  refine ⟨?_, ?_⟩
  · intro p0 hp0
    rw [List.head?_eq_getElem?] at hp0
    obtain ⟨hi, hh0, hy0⟩ := hval 0 p0 hp0
    rw [hy0, hh0, htake_succ 0 hi]
    simp
  · intro i p q hp hq
    obtain ⟨hi, hhp, hyp⟩ := hval i p hp
    obtain ⟨hi1, hhq, hyq⟩ := hval (i + 1) q hq
    rw [hyq, hhq, hyp, htake_succ (i + 1) hi1]
    ring

/-- Every product placed by the horizontal loop carries a group key from the
key list. -/
theorem groupKey_mem_of_mem_layout {H : ℚ} {r : List Product} {p : Product}
    {keys : List ℤ} {cx : ℚ} (h : p ∈ layoutGroups H r keys cx) :
    groupKey p ∈ keys := by
  obtain ⟨k, hk, cx', hstk, -⟩ := mem_layoutGroups keys cx h
  exact (groupKey_of_mem_stack hstk) ▸ hk

/-- Filtering the layout output by a key recovers exactly that key's placed
stack (at some column offset). -/
theorem layout_filter_stack (H : ℚ) (r : List Product) :
    ∀ (keys : List ℤ) (cx : ℚ), keys.Sorted (· < ·) → ∀ k ∈ keys, groupOf r k ≠ [] →
      ∃ cx', (layoutGroups H r keys cx).filter (fun p => decide (groupKey p = k))
        = placeStack H cx' (List.insertionSort rankLE (groupOf r k)) 0
  | [], cx, _, k, hk, _ => by simp at hk
  | k0 :: ks, cx, hsort, k, hk, hne => by
    obtain ⟨hklt, hsort'⟩ := List.sorted_cons.mp hsort
    rw [layoutGroups]
    by_cases hg : groupOf r k0 = []
    · rw [if_pos hg]
      have hkks : k ∈ ks := by
        rcases List.mem_cons.mp hk with rfl | h
        · exact absurd hg hne
        · exact h
      exact layout_filter_stack H r ks cx hsort' k hkks hne
    · rw [if_neg hg, List.filter_append]
      by_cases hkk0 : k = k0
      · subst hkk0
        have h1 : (placeStack H cx (List.insertionSort rankLE (groupOf r k)) 0).filter
            (fun p => decide (groupKey p = k))
            = placeStack H cx (List.insertionSort rankLE (groupOf r k)) 0 := by
          rw [List.filter_eq_self]
          intro p hp
          simp [groupKey_of_mem_stack hp]
        have h2 : (layoutGroups H r ks
              (cx + maxQ ((List.insertionSort rankLE (groupOf r k)).map
                (fun p => p.scaledWidth)))).filter (fun p => decide (groupKey p = k))
            = [] := by
          rw [List.filter_eq_nil_iff]
          intro p hp
          have := groupKey_mem_of_mem_layout hp
          have hlt := hklt _ this
          simp only [decide_eq_true_eq]
          omega
        rw [h1, h2, List.append_nil]
        exact ⟨cx, rfl⟩
      · have hkks : k ∈ ks := by
          rcases List.mem_cons.mp hk with rfl | h
          · exact absurd rfl hkk0
          · exact h
        have h1 : (placeStack H cx (List.insertionSort rankLE (groupOf r k0)) 0).filter
            (fun p => decide (groupKey p = k)) = [] := by
          rw [List.filter_eq_nil_iff]
          intro p hp
          have := groupKey_of_mem_stack hp
          simp only [decide_eq_true_eq]
          omega
        rw [h1, List.nil_append]
        exact layout_filter_stack H r ks _ hsort' k hkks hne

/-! ## C7 — zero-gap stacking -/

/-- A 100-tall product resolving to position 1. -/
def c7prodA : Product :=
  { id := "A", name := "A", scaledWidth := 50, scaledHeight := 100, x := 0, y := 0,
    moduleId := "module-1", ean := some "111", originalEan := none,
    realWidth := some 50, realHeight := some 100, position := 0 }

/-- A second 100-tall product resolving to position 1.1 (same column). -/
def c7prodB : Product := { c7prodA with id := "B", ean := some "222" }

/-- Record placing A at position 1. -/
def c7recA : ExcelProduct :=
  { ean := "111", originalEan := some "111", module := "1", width := 50, height := 100,
    depth := 100, name := "A", position := 1, quantity := 1, duplicateIndex := 0, rowIndex := 1 }

/-- Record placing B at position 1.1. -/
def c7recB : ExcelProduct :=
  { c7recA with
    ean := "222"
    originalEan := some "222"
    position := 11/10 }

/-- C7, counterexample.  Two 100-tall products stacked in a 150-tall module:
the lower-ranked member sits at `y = 50` (bottom edge 150), but the second is
clamped at `y = 0`, so its bottom edge is 100, not the previous member's top
edge 50 — the members overlap vertically. -/
theorem C7_counterexample :
    (recalcProducts [c7recA, c7recB] 150 [c7prodA, c7prodB]).map (fun p => (p.id, p.y))
        = [("A", 50), ("B", 0)]
      ∧ ((0 : ℚ) + 100 ≠ 50) := by
  refine ⟨?_, by norm_num⟩
  norm_num +decide [recalcProducts, resolveList, assignPositions, resolvedPosition,
    lookupRecord, isDupCode, jsStr, c7prodA, c7prodB, c7recA, c7recB, sortedKeys, groupKey,
    layoutGroups, groupOf, placeStack, List.insertionSort, List.orderedInsert, rankLE,
    stackRank, maxQ, List.dedup, List.pwFilter]

/-- C7, amended.  After layout recomputation, provided product heights are
nonnegative and each group's total stack height does not exceed the module
height, each group is a zero-gap chain: the bottom-most member's bottom edge
(`y + height`) equals the module height, and each subsequent member's bottom
edge equals the previous member's `y`.  When a group's stack is taller than
the module, the clamp `y = max(0, …)` breaks the chain (see the
counterexample). -/
theorem C7_theorem (ed : List ExcelProduct) (H : ℚ) (products : List Product)
    (hh : ∀ q ∈ products, 0 ≤ q.scaledHeight)
    (hsum : ∀ k ∈ sortedKeys (resolveList ed products),
      ((groupOf (resolveList ed products) k).map (fun p => p.scaledHeight)).sum ≤ H) :
    ∀ k ∈ sortedKeys (resolveList ed products),
      (∀ p0, ((recalcProducts ed H products).filter
          (fun p => decide (groupKey p = k))).head? = some p0 →
        p0.y + p0.scaledHeight = H)
      ∧ ∀ (i : ℕ) (p q : Product),
          ((recalcProducts ed H products).filter
            (fun p => decide (groupKey p = k)))[i]? = some p →
          ((recalcProducts ed H products).filter
            (fun p => decide (groupKey p = k)))[i + 1]? = some q →
          q.y + q.scaledHeight = p.y := by
  intro k hk
  have hne := groupOf_ne_nil_of_mem_sortedKeys hk
  obtain ⟨cx', hstack⟩ := layout_filter_stack H (resolveList ed products)
    (sortedKeys (resolveList ed products)) 0 (sortedKeys_sorted _) k hk hne
  have hhr : ∀ q ∈ List.insertionSort rankLE (groupOf (resolveList ed products) k),
      0 ≤ q.scaledHeight := by
    intro q hq
    have hq' : q ∈ groupOf (resolveList ed products) k :=
      ((List.perm_insertionSort rankLE _).mem_iff).mp hq
    obtain ⟨p0, hp0, v, rfl⟩ := mem_resolved (List.mem_filter.mp hq').1
    exact hh p0 hp0
  have hsum' : ((List.insertionSort rankLE (groupOf (resolveList ed products) k)).map
      (fun q => q.scaledHeight)).sum ≤ H := by
    have hperm := (List.perm_insertionSort rankLE
      (groupOf (resolveList ed products) k)).map (fun q => q.scaledHeight)
    rw [hperm.sum_eq]
    exact hsum k hk
  have hchain := placeStack_chain H cx' _ hhr hsum'
  rw [recalcProducts]
  rw [hstack]
  exact hchain

/-- C7, witness: two 50-tall products at positions 1 and 1.1 in a 150-tall
module; the claim theorem applied to the bottom member gives bottom edge
`y + height = 150`, the module height. -/
theorem C7_witness : c9prodA.y + c9prodA.scaledHeight = 150 := by
  have hkeys : sortedKeys (resolveList [c9recA, c9recB] [c9prodA, c9prodB]) = [1] := by
    norm_num +decide [sortedKeys, resolveList, assignPositions, resolvedPosition,
      lookupRecord, isDupCode, jsStr, c9prodA, c9prodB, c9recA, c9recB, groupKey,
      List.dedup, List.pwFilter, List.insertionSort, List.orderedInsert]
  have h := C7_theorem [c9recA, c9recB] 150 [c9prodA, c9prodB]
    (by intro q hq
        rcases List.mem_cons.mp hq with rfl | hq
        · norm_num [c9prodA]
        · rcases List.mem_cons.mp hq with rfl | hq
          · norm_num [c9prodB, c9prodA]
          · simp at hq)
    (by intro k hkmem
        rw [hkeys] at hkmem
        rcases List.mem_cons.mp hkmem with rfl | hkmem
        · norm_num +decide [groupOf, resolveList, assignPositions, resolvedPosition,
            lookupRecord, isDupCode, jsStr, c9prodA, c9prodB, c9recA, c9recB, groupKey]
        · simp at hkmem)
    1 (by rw [hkeys]; simp)
  refine h.1 c9prodA ?_
  norm_num +decide [recalcProducts, resolveList, assignPositions, resolvedPosition,
    lookupRecord, isDupCode, jsStr, c9prodA, c9prodB, c9recA, c9recB, sortedKeys, groupKey,
    layoutGroups, groupOf, placeStack, List.insertionSort, List.orderedInsert, rankLE,
    stackRank, maxQ, List.dedup, List.pwFilter]

/-! ## Identity preservation through the pipeline -/

theorem assignPositions_ids :
    ∀ (l : List Product) (n : ℚ),
      (assignPositions l n).map (fun p => p.id) = l.map (fun p => p.id)
  | [], _ => rfl
  | p :: rest, n => by
    rw [assignPositions]
    by_cases h0 : p.position = 0
    · rw [if_pos h0, List.map_cons, List.map_cons, assignPositions_ids rest (n + 1)]
    · rw [if_neg h0, List.map_cons, List.map_cons, assignPositions_ids rest n]

theorem resolveList_ids (ed : List ExcelProduct) (ps : List Product) :
    (resolveList ed ps).map (fun p => p.id) = ps.map (fun p => p.id) := by
  rw [resolveList, assignPositions_ids, List.map_map]
  rfl

theorem placeStack_ids (H cx : ℚ) :
    ∀ (l : List Product) (sb : ℚ),
      (placeStack H cx l sb).map (fun p => p.id) = l.map (fun p => p.id)
  | [], _ => rfl
  | p :: rest, sb => by
    rw [placeStack, List.map_cons, List.map_cons, placeStack_ids H cx rest _]

theorem layoutGroups_congr (H : ℚ) {r₁ r₂ : List Product} :
    ∀ (keys : List ℤ) (cx : ℚ), (∀ k ∈ keys, groupOf r₁ k = groupOf r₂ k) →
      layoutGroups H r₁ keys cx = layoutGroups H r₂ keys cx
  | [], _, _ => rfl
  | k :: ks, cx, h => by
    rw [layoutGroups, layoutGroups, h k (List.mem_cons_self ..)]
    by_cases hg : groupOf r₂ k = []
    · rw [if_pos hg, if_pos hg]
      exact layoutGroups_congr H ks cx (fun j hj => h j (List.mem_cons_of_mem _ hj))
    · rw [if_neg hg, if_neg hg]
      show placeStack H cx (List.insertionSort rankLE (groupOf r₂ k)) 0
            ++ layoutGroups H r₁ ks (cx + maxQ ((List.insertionSort rankLE
              (groupOf r₂ k)).map (fun p => p.scaledWidth)))
          = placeStack H cx (List.insertionSort rankLE (groupOf r₂ k)) 0
            ++ layoutGroups H r₂ ks (cx + maxQ ((List.insertionSort rankLE
              (groupOf r₂ k)).map (fun p => p.scaledWidth)))
      rw [layoutGroups_congr H ks _ (fun j hj => h j (List.mem_cons_of_mem _ hj))]

theorem groupOf_filter_ne (l : List Product) {k k' : ℤ} (hne : k' ≠ k) :
    groupOf (l.filter (fun p => !decide (groupKey p = k))) k' = groupOf l k' := by
  rw [groupOf, groupOf, List.filter_filter]
  refine List.filter_congr (fun a _ => ?_)
  by_cases ha : groupKey a = k'
  · have hnk : ¬ (groupKey a = k) := fun h => hne (ha.symm.trans h)
    simp [ha, hnk, hne]
  · simp [ha]

theorem layoutGroups_ids_perm (H : ℚ) :
    ∀ (keys : List ℤ) (r : List Product) (cx : ℚ), keys.Nodup →
      (∀ p ∈ r, groupKey p ∈ keys) →
      List.Perm ((layoutGroups H r keys cx).map (fun p => p.id))
        (r.map (fun p => p.id))
  | [], r, cx, _, hcover => by
    have hnil : r = [] :=
      List.eq_nil_iff_forall_not_mem.mpr (fun p hp => by simpa using hcover p hp)
    simp [hnil, layoutGroups]
  | k :: ks, r, cx, hnd, hcover => by
    have hk_not : k ∉ ks := (List.nodup_cons.mp hnd).1
    have hnd' : ks.Nodup := (List.nodup_cons.mp hnd).2
    rw [layoutGroups]
    by_cases hg : groupOf r k = []
    · rw [if_pos hg]
      refine layoutGroups_ids_perm H ks r cx hnd' ?_
      intro p hp
      rcases List.mem_cons.mp (hcover p hp) with h | h
      · exfalso
        have : p ∈ groupOf r k := List.mem_filter.mpr ⟨hp, by simp [h]⟩
        rw [hg] at this
        simp at this
      · exact h
    · rw [if_neg hg, List.map_append]
      have hcongr : layoutGroups H r ks
            (cx + maxQ ((List.insertionSort rankLE (groupOf r k)).map (fun p => p.scaledWidth)))
          = layoutGroups H (r.filter (fun p => !decide (groupKey p = k))) ks
            (cx + maxQ ((List.insertionSort rankLE (groupOf r k)).map
              (fun p => p.scaledWidth))) := by
        refine layoutGroups_congr H ks _ (fun j hj => ?_)
        exact (groupOf_filter_ne r (fun heq => hk_not (by rw [← heq]; exact hj))).symm
      rw [hcongr]
      have hcover' : ∀ p ∈ r.filter (fun p => !decide (groupKey p = k)), groupKey p ∈ ks := by
        intro p hp
        have hmem := List.mem_filter.mp hp
        have hne : ¬ (groupKey p = k) := by simpa using hmem.2
        rcases List.mem_cons.mp (hcover p hmem.1) with h | h
        · exact absurd h hne
        · exact h
      have hrec := layoutGroups_ids_perm H ks (r.filter (fun p => !decide (groupKey p = k)))
        (cx + maxQ ((List.insertionSort rankLE (groupOf r k)).map (fun p => p.scaledWidth)))
        hnd' hcover'
      have hstack : (placeStack H cx (List.insertionSort rankLE (groupOf r k)) 0).map
          (fun p => p.id) = (List.insertionSort rankLE (groupOf r k)).map (fun p => p.id) :=
        placeStack_ids H cx _ 0
      have hsortperm := (List.perm_insertionSort rankLE (groupOf r k)).map (fun p => p.id)
      refine List.Perm.trans (List.Perm.append (hstack ▸ hsortperm) hrec) ?_
      have := (List.filter_append_perm (fun p => decide (groupKey p = k)) r).map
        (fun p => p.id)
      rw [List.map_append] at this
      exact this

theorem recalcProducts_ids_perm (ed : List ExcelProduct) (H : ℚ) (ps : List Product) :
    List.Perm ((recalcProducts ed H ps).map (fun p => p.id)) (ps.map (fun p => p.id)) := by
  rw [recalcProducts]
  refine List.Perm.trans (layoutGroups_ids_perm H _ _ 0 ?_ ?_) ?_
  · exact ((List.perm_insertionSort _ _).nodup_iff).mpr (List.nodup_dedup _)
  · intro p hp
    exact sortedKeys_mem_iff.mpr ⟨p, hp, rfl⟩
  · rw [resolveList_ids]

theorem recalculateLayout_ids (moduleId : String) (modules : List Module)
    (ed : Option (List ExcelProduct)) :
    (recalculateLayout moduleId modules ed).map (fun m => m.id)
      = modules.map (fun m => m.id) := by
  rw [recalculateLayout.eq_def]
  split
  · rw [List.map_map]
    refine List.map_congr_left (fun m _ => ?_)
    by_cases h : m.id = moduleId <;> simp [h]
  · rfl

theorem recalculateLayout_getElem (moduleId : String) (modules : List Module)
    (ed : Option (List ExcelProduct)) (i : ℕ) (m : Module)
    (hnd : (modules.map (fun m => m.id)).Nodup)
    (hm : modules[i]? = some m) :
    ∃ m', (recalculateLayout moduleId modules ed)[i]? = some m'
      ∧ m'.id = m.id ∧ m'.width = m.width ∧ m'.height = m.height ∧ m'.depth = m.depth
      ∧ List.Perm (m'.products.map (fun p => p.id)) (m.products.map (fun p => p.id)) := by
  rw [recalculateLayout.eq_def]
  split
  · rename_i md ed' hfind
    simp only [List.getElem?_map, hm, Option.map_some]
    by_cases h : m.id = moduleId
    · have hmdmem : md ∈ modules := List.mem_of_find?_eq_some hfind
      have hmdid : md.id = moduleId := by
        have := List.find?_some hfind
        simpa using this
      have hmmem : m ∈ modules := by
        obtain ⟨hlt, hget⟩ := List.getElem?_eq_some_iff.mp hm
        exact hget ▸ List.getElem_mem hlt
      have hmdm : md = m :=
        List.inj_on_of_nodup_map hnd hmdmem hmmem (by rw [hmdid, h])
      subst hmdm
      refine ⟨_, rfl, ?_⟩
      beta_reduce
      rw [if_pos h]
      refine ⟨rfl, rfl, rfl, rfl, ?_⟩
      exact recalcProducts_ids_perm ed' md.height md.products
    · refine ⟨m, ?_, rfl, rfl, rfl, rfl, List.Perm.refl _⟩
      simp [h]
  · exact ⟨m, hm, rfl, rfl, rfl, rfl, List.Perm.refl _⟩

/-! ## C5: `moveProduct` record synchronisation and membership -/

/-- The `nextPosition` computation of `moveProduct` (store lines 592–602),
restated as a standalone function for use in the claim statement: one plus the
maximum integer group key among the target module's records, `1` when the
target has none. -/
def moveNextPosition (toModuleId : String) (ed : List ExcelProduct) : ℚ :=
  let targetModuleNumber := jsReplace toModuleId "module-" ""
  let moduleProducts := ed.filter (fun item => decide (item.module = targetModuleNumber))
  if moduleProducts = [] then 1
  else (maxZ (moduleProducts.map (fun p => ⌊p.position⌋)) : ℚ) + 1

/-- A product list filtered by `p.id ≠ productId` contains no occurrence of
`productId`. -/
theorem count_id_filter_ne (productId : String) (l : List Product) :
    ((l.filter (fun p => decide (p.id ≠ productId))).map (fun p => p.id)).count productId
      = 0 := by
  rw [List.count_eq_zero]
  intro hmem
  obtain ⟨p, hp, hpe⟩ := List.mem_map.mp hmem
  have := List.of_mem_filter hp
  simp [hpe] at this

/-- A product list on which `any (p.id = productId)` is false contains no
occurrence of `productId`. -/
theorem count_id_not_any (productId : String) (l : List Product)
    (h : ¬ l.any (fun p => decide (p.id = productId)) = true) :
    (l.map (fun p => p.id)).count productId = 0 := by
  rw [List.count_eq_zero]
  intro hmem
  obtain ⟨p, hp, hpe⟩ := List.mem_map.mp hmem
  exact h (List.any_eq_true.mpr ⟨p, hp, by simp [hpe]⟩)

/-- After `moveProduct`'s remove/append phase and the two relayout calls, the
moved id lives exactly in the target module: every module of the result whose
id is the target id holds exactly one product with the moved id, and every
other module holds none. -/
theorem move_count_aux (productId toModuleId fromId : String) (mods : List Module)
    {movedP : Product} {ed' : Option (List ExcelProduct)}
    (hnd : (mods.map (fun m => m.id)).Nodup)
    (i : ℕ) (m' : Module)
    (hm' : (recalculateLayout toModuleId
        (recalculateLayout fromId
          ((mods.map (fun m =>
            if m.products.any (fun p => decide (p.id = productId)) then
              { m with products := m.products.filter (fun p => decide (p.id ≠ productId)) }
            else m)).map (fun m =>
            if m.id = toModuleId then { m with products := m.products ++ [movedP] } else m))
          ed') ed')[i]? = some m')
    (hmid : movedP.id = productId) :
    (m'.products.map (fun p => p.id)).count productId
      = (if m'.id = toModuleId then 1 else 0) := by
  set g : Module → Module := fun m =>
    if m.products.any (fun p => decide (p.id = productId)) then
      { m with products := m.products.filter (fun p => decide (p.id ≠ productId)) }
    else m with hgdef
  set h : Module → Module := fun m =>
    if m.id = toModuleId then { m with products := m.products ++ [movedP] } else m with hhdef
  have hgid : ∀ m : Module, (g m).id = m.id := by
    intro m
    simp only [hgdef]
    by_cases hc : (m.products.any fun p => decide (p.id = productId)) = true
    · rw [if_pos hc]
    · rw [if_neg hc]
  have hhid : ∀ m : Module, (h m).id = m.id := by
    intro m
    simp only [hhdef]
    by_cases hc : m.id = toModuleId
    · rw [if_pos hc]
    · rw [if_neg hc]
  have hFids : (((mods.map g).map h).map (fun m => m.id)) = mods.map (fun m => m.id) := by
    rw [List.map_map, List.map_map]
    refine List.map_congr_left (fun m _ => ?_)
    calc (((fun m => m.id) ∘ h) ∘ g) m = (h (g m)).id := rfl
      _ = (g m).id := hhid (g m)
      _ = m.id := hgid m
  have hndF : ((((mods.map g).map h)).map (fun m => m.id)).Nodup := by
    rw [hFids]; exact hnd
  have hids1 := recalculateLayout_ids fromId ((mods.map g).map h) ed'
  have hnd1 : ((recalculateLayout fromId ((mods.map g).map h) ed').map
      (fun m => m.id)).Nodup := by
    rw [hids1]; exact hndF
  have hids2 := recalculateLayout_ids toModuleId
    (recalculateLayout fromId ((mods.map g).map h) ed') ed'
  have hlen2 : (recalculateLayout toModuleId
      (recalculateLayout fromId ((mods.map g).map h) ed') ed').length = mods.length := by
    have h2 := congrArg List.length hids2
    have h1 := congrArg List.length hids1
    simp only [List.length_map] at h1 h2
    exact h2.trans h1
  have hi : i < mods.length := by
    have := (List.getElem?_eq_some_iff.mp hm').1
    rwa [hlen2] at this
  have hm0 : mods[i]? = some mods[i] := List.getElem?_eq_getElem hi
  have hFi : ((mods.map g).map h)[i]? = some (h (g mods[i])) := by
    rw [List.getElem?_map, List.getElem?_map, hm0]
    rfl
  obtain ⟨m1, hm1, hid1, hw1, hh1, hd1, hperm1⟩ :=
    recalculateLayout_getElem fromId ((mods.map g).map h) ed' i (h (g mods[i])) hndF hFi
  obtain ⟨m2, hm2, hid2, hw2, hh2, hd2, hperm2⟩ :=
    recalculateLayout_getElem toModuleId
      (recalculateLayout fromId ((mods.map g).map h) ed') ed' i m1 hnd1 hm1
  obtain rfl : m2 = m' := Option.some.inj (hm2.symm.trans hm')
  have hcnt : (m2.products.map (fun p => p.id)).count productId
      = ((h (g mods[i])).products.map (fun p => p.id)).count productId := by
    rw [hperm2.count_eq, hperm1.count_eq]
  have hid : m2.id = mods[i].id := by
    rw [hid2, hid1, hhid, hgid]
  have hcountg : ((g mods[i]).products.map (fun p => p.id)).count productId = 0 := by
    by_cases hc : mods[i].products.any (fun p => decide (p.id = productId)) = true
    · simp only [hgdef, hc, if_true]
      exact count_id_filter_ne productId _
    · simp only [hgdef]
      rw [if_neg hc]
      exact count_id_not_any productId _ hc
  have hcounth : ((h (g mods[i])).products.map (fun p => p.id)).count productId
      = (if mods[i].id = toModuleId then 1 else 0) := by
    simp only [hhdef]
    by_cases hc : (g mods[i]).id = toModuleId
    · rw [if_pos hc]
      have hc' : mods[i].id = toModuleId := by rw [← hgid mods[i]]; exact hc
      rw [if_pos hc']
      simp only [List.map_append, List.count_append, hcountg, List.map_cons, List.map_nil]
      rw [hmid]
      simp [List.count_cons]
    · rw [if_neg hc]
      have hc' : ¬ (mods[i].id = toModuleId) := by rw [← hgid mods[i]]; exact hc
      rw [if_neg hc']
      exact hcountg
  rw [hcnt, hcounth, hid]

/-- The product being moved in the C5 scenario: lives in `module-1`, truthy
item code `E`. -/
def c5prodA : Product :=
  { id := "A", name := "A", scaledWidth := 10, scaledHeight := 10, x := 0, y := 0,
    moduleId := "module-1", ean := some "E", originalEan := some "E",
    realWidth := none, realHeight := none, position := 1 }

/-- Its tabular record, assigned to module number `1`. -/
def c5rec : ExcelProduct :=
  { ean := "E", originalEan := some "E", module := "1", width := 10, height := 10,
    depth := 0, name := "A", position := 1, quantity := 1, duplicateIndex := 0, rowIndex := 1 }

/-- Source module of the move scenario. -/
def c5module1 : Module :=
  { id := "module-1", name := "M1", width := 100, height := 100, depth := 0, x := 0, y := 0,
    products := [c5prodA] }

/-- Empty target module of the move scenario. -/
def c5module2 : Module :=
  { id := "module-2", name := "M2", width := 100, height := 100, depth := 0, x := 0, y := 0,
    products := [] }

/-- The state of the move scenario. -/
def c5state : PlanState := { modules := [c5module1, c5module2], excelData := some [c5rec] }

/-- C5.  Moving an existing product (truthy item code, found in module `fm`,
record set present, target module present, distinct module ids) to another
module: (1) every record matching the product by item code or original item
code gets `module` set to the target module's record-side identity (its id
with the `module-` prefix stripped) and `position` set to one plus the maximum
integer group key among the target module's records (`1` when the target has
none), all other records unchanged; (2) the product is detached from its
source and appended to the target: in the resulting state exactly the modules
whose id is the target id hold the moved id, exactly once. -/
theorem C5_theorem (s : PlanState) (productId toModuleId : String) (pos : Option (ℚ × ℚ))
    (fm : Module) (product : Product) (ed : List ExcelProduct)
    (hfm : (s.modules.filter (fun m =>
        m.products.any (fun p => decide (p.id = productId)))).getLast? = some fm)
    (hprod : fm.products.find? (fun p => decide (p.id = productId)) = some product)
    (hed : s.excelData = some ed)
    (htm : ∃ tm ∈ s.modules, tm.id = toModuleId)
    (hean : eanTruthy product.ean = true)
    (hnd : (s.modules.map (fun m => m.id)).Nodup) :
    (moveProduct s productId toModuleId pos).excelData
      = some (ed.map (fun item =>
          if decide (some item.ean = product.ean)
              || decide (item.originalEan = product.originalEan) then
            { item with
                module := jsReplace toModuleId "module-" ""
                position := moveNextPosition toModuleId ed }
          else item))
    ∧ ∀ i : ℕ, ∀ m', (moveProduct s productId toModuleId pos).modules[i]? = some m' →
        (m'.products.map (fun p => p.id)).count productId
          = (if m'.id = toModuleId then 1 else 0) := by
  obtain ⟨tm, htmmem, htmid⟩ := htm
  have hpid : product.id = productId := by
    have := List.find?_some hprod
    simpa using this
  have hsome : ((s.modules.map (fun m =>
      if m.products.any (fun p => decide (p.id = productId)) then
        { m with products := m.products.filter (fun p => decide (p.id ≠ productId)) }
      else m)).find? (fun m => decide (m.id = toModuleId))).isSome = true := by
    rw [List.find?_isSome]
    refine ⟨_, List.mem_map_of_mem _ htmmem, ?_⟩
    by_cases hc : tm.products.any (fun p => decide (p.id = productId)) = true <;>
      simp [hc, htmid]
  obtain ⟨t, ht⟩ := Option.isSome_iff_exists.mp hsome
  rw [moveProduct.eq_def]
  simp only [hfm, hprod, hed, ht, hean, eq_self_iff_true, if_true]
  refine ⟨rfl, ?_⟩
  intro i m' hm'
  exact move_count_aux productId toModuleId fm.id s.modules hnd i m' hm' hpid

/-- C5, witness: moving product `A` from `module-1` to the empty `module-2`
updates its record to module `2`, position `1`, and lands the product alone in
the target module. -/
theorem C5_witness :
    (moveProduct c5state "A" "module-2" none).excelData
      = some ([c5rec].map (fun item =>
          if decide (some item.ean = c5prodA.ean)
              || decide (item.originalEan = c5prodA.originalEan) then
            { item with
                module := jsReplace "module-2" "module-" ""
                position := moveNextPosition "module-2" [c5rec] }
          else item))
    ∧ ∀ i : ℕ, ∀ m', (moveProduct c5state "A" "module-2" none).modules[i]? = some m' →
        (m'.products.map (fun p => p.id)).count "A"
          = (if m'.id = "module-2" then 1 else 0) :=
  C5_theorem c5state "A" "module-2" none c5module1 c5prodA [c5rec]
    (by norm_num +decide [c5state, c5module1, c5module2, c5prodA])
    (by norm_num +decide [c5module1, c5prodA])
    rfl
    ⟨c5module2, List.mem_cons_of_mem _ (List.mem_cons_self ..), rfl⟩
    (by decide)
    (by decide)

/-! ## C10 — idempotence of the layout engine -/

/-- The record lookup reads only the two code fields. -/
theorem lookupRecord_congr (ed : List ExcelProduct) {p q : Product}
    (he : p.ean = q.ean) (ho : p.originalEan = q.originalEan) :
    lookupRecord ed p = lookupRecord ed q := by
  simp only [lookupRecord]
  rw [he, ho]

/-- So does the resolved position. -/
theorem resolvedPosition_congr (ed : List ExcelProduct) {p q : Product}
    (he : p.ean = q.ean) (ho : p.originalEan = q.originalEan) :
    resolvedPosition ed p = resolvedPosition ed q := by
  simp only [resolvedPosition]
  rw [lookupRecord_congr ed he ho]

theorem resolvedPosition_set_position (ed : List ExcelProduct) (p : Product) (v : ℚ) :
    resolvedPosition ed { p with position := v } = resolvedPosition ed p :=
  resolvedPosition_congr ed rfl rfl

theorem resolvedPosition_set_xy (ed : List ExcelProduct) (p : Product) (a b : ℚ) :
    resolvedPosition ed { p with x := a, y := b } = resolvedPosition ed p :=
  resolvedPosition_congr ed rfl rfl

/-- `placeStack` only rewrites `x` and `y`, so any observation that ignores
those fields maps through it unchanged. -/
theorem placeStack_map_invariant {β : Type} (f : Product → β)
    (hf : ∀ (p : Product) (a b : ℚ), f { p with x := a, y := b } = f p) (H cx : ℚ) :
    ∀ (l : List Product) (sb : ℚ), (placeStack H cx l sb).map f = l.map f
  | [], _ => rfl
  | p :: rest, sb => by
    rw [placeStack, List.map_cons, List.map_cons,
      placeStack_map_invariant f hf H cx rest _, hf]

/-- The flattened layout is a permutation of the resolved list under any
`x`/`y`-blind observation. -/
theorem layoutGroups_map_perm {β : Type} (f : Product → β)
    (hf : ∀ (p : Product) (a b : ℚ), f { p with x := a, y := b } = f p) (H : ℚ) :
    ∀ (keys : List ℤ) (r : List Product) (cx : ℚ), keys.Nodup →
      (∀ p ∈ r, groupKey p ∈ keys) →
      List.Perm ((layoutGroups H r keys cx).map f) (r.map f)
  | [], r, cx, _, hcover => by
    have hnil : r = [] :=
      List.eq_nil_iff_forall_not_mem.mpr (fun p hp => by simpa using hcover p hp)
    simp [hnil, layoutGroups]
  | k :: ks, r, cx, hnd, hcover => by
    have hk_not : k ∉ ks := (List.nodup_cons.mp hnd).1
    have hnd' : ks.Nodup := (List.nodup_cons.mp hnd).2
    rw [layoutGroups]
    by_cases hg : groupOf r k = []
    · rw [if_pos hg]
      refine layoutGroups_map_perm f hf H ks r cx hnd' ?_
      intro p hp
      rcases List.mem_cons.mp (hcover p hp) with h | h
      · exfalso
        have : p ∈ groupOf r k := List.mem_filter.mpr ⟨hp, by simp [h]⟩
        rw [hg] at this
        simp at this
      · exact h
    · rw [if_neg hg, List.map_append]
      have hcongr : layoutGroups H r ks
            (cx + maxQ ((List.insertionSort rankLE (groupOf r k)).map (fun p => p.scaledWidth)))
          = layoutGroups H (r.filter (fun p => !decide (groupKey p = k))) ks
            (cx + maxQ ((List.insertionSort rankLE (groupOf r k)).map
              (fun p => p.scaledWidth))) := by
        refine layoutGroups_congr H ks _ (fun j hj => ?_)
        exact (groupOf_filter_ne r (fun heq => hk_not (by rw [← heq]; exact hj))).symm
      rw [hcongr]
      have hcover' : ∀ p ∈ r.filter (fun p => !decide (groupKey p = k)), groupKey p ∈ ks := by
        intro p hp
        have hmem := List.mem_filter.mp hp
        have hne : ¬ (groupKey p = k) := by simpa using hmem.2
        rcases List.mem_cons.mp (hcover p hmem.1) with h | h
        · exact absurd h hne
        · exact h
      have hrec := layoutGroups_map_perm f hf H ks (r.filter (fun p => !decide (groupKey p = k)))
        (cx + maxQ ((List.insertionSort rankLE (groupOf r k)).map (fun p => p.scaledWidth)))
        hnd' hcover'
      have hstack : (placeStack H cx (List.insertionSort rankLE (groupOf r k)) 0).map f
          = (List.insertionSort rankLE (groupOf r k)).map f :=
        placeStack_map_invariant f hf H cx _ 0
      have hsortperm := (List.perm_insertionSort rankLE (groupOf r k)).map f
      refine List.Perm.trans (List.Perm.append (hstack ▸ hsortperm) hrec) ?_
      have := (List.filter_append_perm (fun p => decide (groupKey p = k)) r).map f
      rw [List.map_append] at this
      exact this

/-- The ascending run of integer positions that the auto-assignment counter
produces: `z, z+1, …` of a given length, as rationals. -/
def consecFrom (z : ℤ) : ℕ → List ℚ
  | 0 => []
  | k + 1 => ((z : ℚ)) :: consecFrom (z + 1) k

theorem consecFrom_mem : ∀ (z : ℤ) (k : ℕ), ∀ v ∈ consecFrom z k,
    (z : ℚ) ≤ v ∧ ∃ y : ℤ, v = (y : ℚ)
  | z, 0, v, h => by simp [consecFrom] at h
  | z, k + 1, v, h => by
    rw [consecFrom] at h
    rcases List.mem_cons.mp h with rfl | h
    · exact ⟨le_refl _, z, rfl⟩
    · obtain ⟨hle, y, hy⟩ := consecFrom_mem (z + 1) k v h
      refine ⟨le_trans ?_ hle, y, hy⟩
      push_cast
      linarith

theorem consecFrom_sorted : ∀ (z : ℤ) (k : ℕ), (consecFrom z k).Sorted (· ≤ ·)
  | _, 0 => List.sorted_nil
  | z, k + 1 => by
    rw [consecFrom, List.sorted_cons]
    refine ⟨fun b hb => ?_, consecFrom_sorted (z + 1) k⟩
    have h := (consecFrom_mem (z + 1) k b hb).1
    have : ((z : ℚ)) ≤ ((z + 1 : ℤ) : ℚ) := by push_cast; linarith
    linarith

theorem consecFrom_length : ∀ (z : ℤ) (k : ℕ), (consecFrom z k).length = k
  | _, 0 => rfl
  | z, k + 1 => by rw [consecFrom, List.length_cons, consecFrom_length (z + 1) k]

/-- Products whose resolved position is nonzero keep it verbatim through the
auto-assignment scan. -/
theorem assign_nonauto (ed : List ExcelProduct) :
    ∀ (base : List Product) (n : ℚ), (∀ b ∈ base, b.position = resolvedPosition ed b) →
      ∀ w ∈ assignPositions base n, resolvedPosition ed w ≠ 0 →
        w.position = resolvedPosition ed w
  | [], _, _, w, hw => by simp [assignPositions] at hw
  | b :: rest, n, hb, w, hw => by
    have hbb := hb b (List.mem_cons_self ..)
    have hbrest : ∀ x ∈ rest, x.position = resolvedPosition ed x :=
      fun x hx => hb x (List.mem_cons_of_mem _ hx)
    rw [assignPositions] at hw
    by_cases h0 : b.position = 0
    · rw [if_pos h0] at hw
      rcases List.mem_cons.mp hw with rfl | hw
      · intro hne
        exfalso
        apply hne
        rw [resolvedPosition_set_position, ← hbb, h0]
      · exact assign_nonauto ed rest (n + 1) hbrest w hw
    · rw [if_neg h0] at hw
      rcases List.mem_cons.mp hw with rfl | hw
      · intro _
        exact hbb
      · exact assign_nonauto ed rest n hbrest w hw

/-- Products whose resolved position is zero come out of the scan carrying the
consecutive counter values `z, z+1, …`, in scan order. -/
theorem assign_autos (ed : List ExcelProduct) :
    ∀ (base : List Product) (z : ℤ), (∀ b ∈ base, b.position = resolvedPosition ed b) →
      ((assignPositions base (z : ℚ)).filter
          (fun w => decide (resolvedPosition ed w = 0))).map (fun p => p.position)
        = consecFrom z (base.countP (fun b => decide (b.position = 0)))
  | [], _, _ => by simp [assignPositions, consecFrom]
  | b :: rest, z, hb => by
    have hbb := hb b (List.mem_cons_self ..)
    have hbrest : ∀ x ∈ rest, x.position = resolvedPosition ed x :=
      fun x hx => hb x (List.mem_cons_of_mem _ hx)
    rw [assignPositions]
    by_cases h0 : b.position = 0
    · rw [if_pos h0]
      have hcnt : (b :: rest).countP (fun b => decide (b.position = 0))
          = rest.countP (fun b => decide (b.position = 0)) + 1 := by
        rw [List.countP_cons]
        simp [h0]
      have hauto : decide (resolvedPosition ed ({ b with position := (z : ℚ) }) = 0) = true := by
        rw [resolvedPosition_set_position, ← hbb]
        simp [h0]
      rw [hcnt, consecFrom, List.filter_cons]
      simp only [hauto, if_true, List.map_cons]
      have hz1 : ((z : ℚ) + 1) = ((z + 1 : ℤ) : ℚ) := by push_cast; ring
      rw [hz1, assign_autos ed rest (z + 1) hbrest]
    · rw [if_neg h0]
      have hcnt : (b :: rest).countP (fun b => decide (b.position = 0))
          = rest.countP (fun b => decide (b.position = 0)) := by
        rw [List.countP_cons]
        simp [h0]
      have hnonauto : decide (resolvedPosition ed b = 0) = false := by
        rw [← hbb]
        simp [h0]
      rw [hcnt, List.filter_cons]
      simp only [hnonauto, Bool.false_eq_true, if_false]
      exact assign_autos ed rest z hbrest

/-- If a list already satisfies the scan's invariants — nonzero-resolved
products store their resolved position, zero-resolved products store the
consecutive counters — then re-resolving and re-scanning reproduces it. -/
theorem assignPositions_restore (ed : List ExcelProduct) :
    ∀ (L : List Product) (z : ℤ),
      (∀ w ∈ L, resolvedPosition ed w ≠ 0 → w.position = resolvedPosition ed w) →
      ((L.filter (fun w => decide (resolvedPosition ed w = 0))).map (fun p => p.position)
        = consecFrom z ((L.filter (fun w => decide (resolvedPosition ed w = 0))).length)) →
      assignPositions (L.map (fun p => { p with position := resolvedPosition ed p }))
        (z : ℚ) = L
  | [], _, _, _ => rfl
  | w :: rest, z, hna, hau => by
    rw [List.map_cons, assignPositions]
    by_cases h0 : resolvedPosition ed w = 0
    · have hc : ({ w with position := resolvedPosition ed w } : Product).position = 0 := h0
      rw [if_pos hc]
      have hfw : decide (resolvedPosition ed w = 0) = true := by simp [h0]
      rw [List.filter_cons] at hau
      simp only [hfw, if_true, List.map_cons, List.length_cons, consecFrom] at hau
      rw [List.cons_eq_cons] at hau
      obtain ⟨hw, hrest⟩ := hau
      have hhead : ({ ({ w with position := resolvedPosition ed w } : Product) with
          position := (z : ℚ) } : Product) = w := by
        have h1 : ({ w with position := (z : ℚ) } : Product) = w := by
          rw [← hw]
        exact h1
      rw [hhead]
      have hz1 : ((z : ℚ) + 1) = ((z + 1 : ℤ) : ℚ) := by push_cast; ring
      rw [hz1, assignPositions_restore ed rest (z + 1)
        (fun x hx => hna x (List.mem_cons_of_mem _ hx)) hrest]
    · have hc : ¬ (({ w with position := resolvedPosition ed w } : Product).position = 0) := h0
      rw [if_neg hc]
      have hwp := hna w (List.mem_cons_self ..) h0
      have hhead : ({ w with position := resolvedPosition ed w } : Product) = w := by
        rw [← hwp]
      rw [hhead]
      have hfw : decide (resolvedPosition ed w = 0) = false := by simp [h0]
      rw [List.filter_cons] at hau
      simp only [hfw, Bool.false_eq_true, if_false] at hau
      rw [assignPositions_restore ed rest z
        (fun x hx => hna x (List.mem_cons_of_mem _ hx)) hau]

/-- Over a `≤`-sorted key list the flattened layout's group keys come out
non-decreasing. -/
theorem layoutGroups_key_sorted (H : ℚ) (r : List Product) :
    ∀ (keys : List ℤ) (cx : ℚ), keys.Sorted (· ≤ ·) →
      ((layoutGroups H r keys cx).map groupKey).Sorted (· ≤ ·)
  | [], _, _ => by simp [layoutGroups]
  | k :: ks, cx, hsort => by
    obtain ⟨hkle, hsort2⟩ := List.sorted_cons.mp hsort
    rw [layoutGroups]
    by_cases hg : groupOf r k = []
    · rw [if_pos hg]
      exact layoutGroups_key_sorted H r ks cx hsort2
    · rw [if_neg hg, List.map_append, List.Sorted, List.pairwise_append]
      refine ⟨?_, layoutGroups_key_sorted H r ks _ hsort2, ?_⟩
      · have hall : ∀ a ∈ (placeStack H cx (List.insertionSort rankLE (groupOf r k)) 0).map
            groupKey, a = k := by
          intro a ha
          obtain ⟨p, hp, rfl⟩ := List.mem_map.mp ha
          exact groupKey_of_mem_stack hp
        exact List.pairwise_of_forall_mem_list (fun a ha b hb => by rw [hall a ha, hall b hb])
      · intro a ha b hb
        obtain ⟨p, hp, rfl⟩ := List.mem_map.mp ha
        obtain ⟨q, hq, rfl⟩ := List.mem_map.mp hb
        rw [groupKey_of_mem_stack hp]
        exact hkle _ (groupKey_mem_of_mem_layout hq)

/-- The stack placement preserves in-list rank order. -/
theorem placeStack_sorted_rank (H cx : ℚ) :
    ∀ (l : List Product) (sb : ℚ), l.Sorted rankLE → (placeStack H cx l sb).Sorted rankLE
  | [], _, _ => by simp [placeStack]
  | p :: rest, sb, hs => by
    rw [placeStack]
    obtain ⟨hhead, htail⟩ := List.pairwise_cons.mp hs
    refine List.pairwise_cons.mpr ⟨?_, placeStack_sorted_rank H cx rest _ htail⟩
    intro q hq
    obtain ⟨q0, hq0, sb2, hqe, h3⟩ := mem_placeStack rest _ hq
    rw [hqe]
    exact hhead q0 hq0

/-- Re-placing an already placed stack with the same offsets is the identity:
the recomputed `x` and `y` coincide with the stored ones. -/
theorem placeStack_idem (H cx : ℚ) :
    ∀ (l : List Product) (sb : ℚ),
      placeStack H cx (placeStack H cx l sb) sb = placeStack H cx l sb
  | [], _ => rfl
  | p :: rest, sb => by
    simp only [placeStack]
    rw [placeStack_idem H cx rest (sb + p.scaledHeight)]

/-- Lists with the same multiset of group keys have the same sorted key
list. -/
theorem sortedKeys_perm_eq {l₁ l₂ : List Product}
    (h : List.Perm (l₁.map groupKey) (l₂.map groupKey)) : sortedKeys l₁ = sortedKeys l₂ := by
  rw [sortedKeys, sortedKeys]
  refine List.eq_of_perm_of_sorted ?_ (List.sorted_insertionSort _ _)
    (List.sorted_insertionSort _ _)
  exact (List.perm_insertionSort _ _).trans (h.dedup.trans (List.perm_insertionSort _ _).symm)

/-- Re-resolving the layout engine's own output is the identity: looked-up
positions are stored verbatim, and the auto counters are reproduced because the
auto products sit in ascending key order in the flattened output. -/
theorem resolveList_layout_self (ed : List ExcelProduct) (H : ℚ) (ps : List Product) :
    resolveList ed (recalcProducts ed H ps) = recalcProducts ed H ps := by
  have hbase : ∀ b ∈ ps.map (fun p => { p with position := resolvedPosition ed p }),
      b.position = resolvedPosition ed b := by
    intro b hb
    obtain ⟨p, hp, rfl⟩ := List.mem_map.mp hb
    exact (resolvedPosition_congr ed rfl rfl).symm
  have hr : resolveList ed ps
      = assignPositions (ps.map (fun p => { p with position := resolvedPosition ed p }))
        ((1 : ℤ) : ℚ) := by
    rw [resolveList]
    norm_num
  have hna_r : ∀ w ∈ resolveList ed ps, resolvedPosition ed w ≠ 0 →
      w.position = resolvedPosition ed w := by
    intro w hw
    rw [hr] at hw
    exact assign_nonauto ed _ _ hbase w hw
  have hau_r : ((resolveList ed ps).filter (fun w => decide (resolvedPosition ed w = 0))).map
      (fun p => p.position)
      = consecFrom 1 ((ps.map (fun p => { p with position := resolvedPosition ed p })).countP
          (fun b => decide (b.position = 0))) := by
    rw [hr]
    exact assign_autos ed _ 1 hbase
  have hknd : (sortedKeys (resolveList ed ps)).Nodup :=
    ((List.perm_insertionSort _ _).nodup_iff).mpr (List.nodup_dedup _)
  have hcover : ∀ p ∈ resolveList ed ps, groupKey p ∈ sortedKeys (resolveList ed ps) :=
    fun p hp => sortedKeys_mem_iff.mpr ⟨p, hp, rfl⟩
  have hperm0 : List.Perm
      ((recalcProducts ed H ps).map (fun p => ({ p with x := 0, y := 0 } : Product)))
      ((resolveList ed ps).map (fun p => ({ p with x := 0, y := 0 } : Product))) :=
    layoutGroups_map_perm (fun p => ({ p with x := 0, y := 0 } : Product))
      (fun p a b => rfl) H _ _ 0 hknd hcover
  have hfac : ∀ M : List Product,
      ((M.map (fun p => ({ p with x := 0, y := 0 } : Product))).filter
        (fun w => decide (resolvedPosition ed w = 0))).map (fun p => p.position)
      = (M.filter (fun w => decide (resolvedPosition ed w = 0))).map
          (fun p => p.position) := by
    intro M
    rw [List.filter_map, List.map_map]
    have h1 : M.filter ((fun w => decide (resolvedPosition ed w = 0))
        ∘ (fun p => ({ p with x := 0, y := 0 } : Product)))
        = M.filter (fun w => decide (resolvedPosition ed w = 0)) := by
      refine List.filter_congr (fun a _ => ?_)
      simp only [Function.comp_apply]
      rw [resolvedPosition_set_xy]
    rw [h1]
    exact List.map_congr_left (fun a _ => rfl)
  have hpermA : List.Perm
      (((recalcProducts ed H ps).filter (fun w => decide (resolvedPosition ed w = 0))).map
        (fun p => p.position))
      (((resolveList ed ps).filter (fun w => decide (resolvedPosition ed w = 0))).map
        (fun p => p.position)) := by
    have h2 := (hperm0.filter (fun w => decide (resolvedPosition ed w = 0))).map
      (fun p => p.position)
    rw [hfac, hfac] at h2
    exact h2
  have hintpos : ∀ w ∈ (recalcProducts ed H ps).filter
      (fun w => decide (resolvedPosition ed w = 0)),
      w.position = ((groupKey w : ℤ) : ℚ) := by
    intro w hw
    have hmem : w.position ∈ ((recalcProducts ed H ps).filter
        (fun w => decide (resolvedPosition ed w = 0))).map (fun p => p.position) :=
      List.mem_map_of_mem _ hw
    have hmem2 := hpermA.mem_iff.mp hmem
    rw [hau_r] at hmem2
    obtain ⟨hle, y, hy⟩ := consecFrom_mem _ _ _ hmem2
    have hkey : groupKey w = y := by
      rw [groupKey, hy, Int.floor_intCast]
    rw [hkey]
    exact hy
  have hsortL : (((recalcProducts ed H ps).filter
      (fun w => decide (resolvedPosition ed w = 0))).map
        (fun p => p.position)).Sorted (· ≤ ·) := by
    have hLsorted : ((recalcProducts ed H ps).map groupKey).Sorted (· ≤ ·) :=
      layoutGroups_key_sorted H _ _ 0 ((sortedKeys_sorted _).imp le_of_lt)
    have hsub : ((recalcProducts ed H ps).filter
        (fun w => decide (resolvedPosition ed w = 0))).Sublist (recalcProducts ed H ps) :=
      List.filter_sublist _
    have hsorted2 : (((recalcProducts ed H ps).filter
        (fun w => decide (resolvedPosition ed w = 0))).map groupKey).Sorted (· ≤ ·) :=
      hLsorted.sublist (hsub.map groupKey)
    rw [List.Sorted, List.pairwise_map] at hsorted2 ⊢
    refine hsorted2.imp_of_mem ?_
    intro a b ha hb hab
    rw [hintpos a ha, hintpos b hb]
    exact_mod_cast hab
  have hconsecL : ((recalcProducts ed H ps).filter
      (fun w => decide (resolvedPosition ed w = 0))).map (fun p => p.position)
      = consecFrom 1 (((recalcProducts ed H ps).filter
          (fun w => decide (resolvedPosition ed w = 0))).length) := by
    have heq : ((recalcProducts ed H ps).filter
        (fun w => decide (resolvedPosition ed w = 0))).map (fun p => p.position)
        = consecFrom 1 ((ps.map (fun p => { p with position := resolvedPosition ed p })).countP
            (fun b => decide (b.position = 0))) :=
      List.eq_of_perm_of_sorted (hpermA.trans (by rw [hau_r])) hsortL (consecFrom_sorted _ _)
    have hlen := congrArg List.length heq
    rw [List.length_map, consecFrom_length] at hlen
    rw [heq, hlen]
  have hnaL : ∀ w ∈ recalcProducts ed H ps, resolvedPosition ed w ≠ 0 →
      w.position = resolvedPosition ed w := by
    intro w hw hne
    obtain ⟨k, hk, cx2, hstk, h4⟩ := mem_layoutGroups _ _ hw
    obtain ⟨q, hq, sb2, hqe, h5⟩ := mem_placeStack _ _ hstk
    have hq2 : q ∈ groupOf (resolveList ed ps) k :=
      ((List.perm_insertionSort rankLE _).mem_iff).mp hq
    have hq3 : q ∈ resolveList ed ps := (List.mem_filter.mp hq2).1
    have hres_eq : resolvedPosition ed w = resolvedPosition ed q := by
      rw [hqe]
      exact resolvedPosition_set_xy ed q _ _
    have hpos_eq : w.position = q.position := by rw [hqe]
    rw [hres_eq] at hne ⊢
    rw [hpos_eq]
    exact hna_r q hq3 hne
  have hfinal := assignPositions_restore ed (recalcProducts ed H ps) 1 hnaL hconsecL
  rw [resolveList]
  have hone : ((1 : ℤ) : ℚ) = (1 : ℚ) := by norm_num
  rw [hone] at hfinal
  exact hfinal

theorem groupOf_append (a b : List Product) (k : ℤ) :
    groupOf (a ++ b) k = groupOf a k ++ groupOf b k := by
  rw [groupOf, groupOf, groupOf, List.filter_append]

/-- Laying out the layout's own flattened output over the same key list
reproduces it: each group filters back out of the output, is already
rank-sorted, and re-placement recomputes the same coordinates. -/
theorem layoutGroups_twice (H : ℚ) (r : List Product) :
    ∀ (keys : List ℤ) (cx : ℚ), keys.Nodup →
      layoutGroups H (layoutGroups H r keys cx) keys cx = layoutGroups H r keys cx
  | [], _, _ => rfl
  | k :: ks, cx, hnd => by
    have hk_not : k ∉ ks := (List.nodup_cons.mp hnd).1
    have hnd2 : ks.Nodup := (List.nodup_cons.mp hnd).2
    by_cases hg : groupOf r k = []
    · have hinner : layoutGroups H r (k :: ks) cx = layoutGroups H r ks cx := by
        rw [layoutGroups, if_pos hg]
      rw [hinner, layoutGroups]
      have hgL : groupOf (layoutGroups H r ks cx) k = [] := by
        rw [groupOf, List.filter_eq_nil_iff]
        intro p hp
        have hmem := groupKey_mem_of_mem_layout hp
        simp only [decide_eq_true_eq]
        intro hkk
        exact hk_not (hkk ▸ hmem)
      rw [if_pos hgL]
      exact layoutGroups_twice H r ks cx hnd2
    · have hinner : layoutGroups H r (k :: ks) cx
          = placeStack H cx (List.insertionSort rankLE (groupOf r k)) 0
            ++ layoutGroups H r ks
              (cx + maxQ ((List.insertionSort rankLE (groupOf r k)).map
                (fun p => p.scaledWidth))) := by
        rw [layoutGroups, if_neg hg]
      rw [hinner]
      conv_lhs => rw [layoutGroups]
      have hgSL : groupOf (placeStack H cx (List.insertionSort rankLE (groupOf r k)) 0
            ++ layoutGroups H r ks
              (cx + maxQ ((List.insertionSort rankLE (groupOf r k)).map
                (fun p => p.scaledWidth)))) k
          = placeStack H cx (List.insertionSort rankLE (groupOf r k)) 0 := by
        rw [groupOf, List.filter_append]
        have h1 : (placeStack H cx (List.insertionSort rankLE (groupOf r k)) 0).filter
            (fun p => decide (groupKey p = k))
            = placeStack H cx (List.insertionSort rankLE (groupOf r k)) 0 := by
          rw [List.filter_eq_self]
          intro p hp
          simp [groupKey_of_mem_stack hp]
        have h2 : (layoutGroups H r ks
              (cx + maxQ ((List.insertionSort rankLE (groupOf r k)).map
                (fun p => p.scaledWidth)))).filter (fun p => decide (groupKey p = k)) = [] := by
          rw [List.filter_eq_nil_iff]
          intro p hp
          have hmem := groupKey_mem_of_mem_layout hp
          simp only [decide_eq_true_eq]
          intro hkk
          exact hk_not (hkk ▸ hmem)
        rw [h1, h2, List.append_nil]
      rw [hgSL]
      have hSne : placeStack H cx (List.insertionSort rankLE (groupOf r k)) 0 ≠ [] := by
        intro hnil
        have hlen := congrArg List.length hnil
        rw [placeStack_length, List.length_nil] at hlen
        have hlen2 := (List.perm_insertionSort rankLE (groupOf r k)).length_eq
        rw [hlen2] at hlen
        exact hg (List.length_eq_zero.mp hlen)
      rw [if_neg hSne]
      have hSsorted : (placeStack H cx (List.insertionSort rankLE (groupOf r k)) 0).Sorted
          rankLE :=
        placeStack_sorted_rank H cx _ 0 (List.sorted_insertionSort rankLE _)
      rw [hSsorted.insertionSort_eq]
      have hwidths : (placeStack H cx (List.insertionSort rankLE (groupOf r k)) 0).map
          (fun p => p.scaledWidth)
          = (List.insertionSort rankLE (groupOf r k)).map (fun p => p.scaledWidth) :=
        placeStack_map_invariant (fun p => p.scaledWidth) (fun p a b => rfl) H cx _ 0
      show placeStack H cx (placeStack H cx (List.insertionSort rankLE (groupOf r k)) 0) 0
          ++ layoutGroups H
            (placeStack H cx (List.insertionSort rankLE (groupOf r k)) 0
              ++ layoutGroups H r ks
                (cx + maxQ ((List.insertionSort rankLE (groupOf r k)).map
                  (fun p => p.scaledWidth)))) ks
            (cx + maxQ ((placeStack H cx (List.insertionSort rankLE (groupOf r k)) 0).map
              (fun p => p.scaledWidth)))
        = placeStack H cx (List.insertionSort rankLE (groupOf r k)) 0
            ++ layoutGroups H r ks
              (cx + maxQ ((List.insertionSort rankLE (groupOf r k)).map
                (fun p => p.scaledWidth)))
      rw [hwidths, placeStack_idem]
      have hcongr : layoutGroups H
            (placeStack H cx (List.insertionSort rankLE (groupOf r k)) 0
              ++ layoutGroups H r ks
                (cx + maxQ ((List.insertionSort rankLE (groupOf r k)).map
                  (fun p => p.scaledWidth)))) ks
            (cx + maxQ ((List.insertionSort rankLE (groupOf r k)).map
              (fun p => p.scaledWidth)))
          = layoutGroups H
            (layoutGroups H r ks
              (cx + maxQ ((List.insertionSort rankLE (groupOf r k)).map
                (fun p => p.scaledWidth)))) ks
            (cx + maxQ ((List.insertionSort rankLE (groupOf r k)).map
              (fun p => p.scaledWidth))) := by
        refine layoutGroups_congr H ks _ (fun j hj => ?_)
        have hjk : j ≠ k := fun h => hk_not (h ▸ hj)
        rw [groupOf_append]
        have h1 : groupOf (placeStack H cx (List.insertionSort rankLE (groupOf r k)) 0) j
            = [] := by
          refine List.filter_eq_nil_iff.mpr (fun q hq => ?_)
          have hk2 := groupKey_of_mem_stack hq
          simp only [decide_eq_true_eq]
          intro hkj
          exact hjk (hkj.symm.trans hk2)
        rw [h1, List.nil_append]
      rw [hcongr, layoutGroups_twice H r ks _ hnd2]

/-- Applying the product pipeline to its own output reproduces it. -/
theorem recalcProducts_idem (ed : List ExcelProduct) (H : ℚ) (ps : List Product) :
    recalcProducts ed H (recalcProducts ed H ps) = recalcProducts ed H ps := by
  have hknd : (sortedKeys (resolveList ed ps)).Nodup :=
    ((List.perm_insertionSort _ _).nodup_iff).mpr (List.nodup_dedup _)
  have hcover : ∀ p ∈ resolveList ed ps, groupKey p ∈ sortedKeys (resolveList ed ps) :=
    fun p hp => sortedKeys_mem_iff.mpr ⟨p, hp, rfl⟩
  have hLdef : recalcProducts ed H ps
      = layoutGroups H (resolveList ed ps) (sortedKeys (resolveList ed ps)) 0 := rfl
  have hkperm : List.Perm ((recalcProducts ed H ps).map groupKey)
      ((resolveList ed ps).map groupKey) :=
    layoutGroups_map_perm groupKey (fun p a b => rfl) H _ _ 0 hknd hcover
  have hkeys : sortedKeys (recalcProducts ed H ps) = sortedKeys (resolveList ed ps) :=
    sortedKeys_perm_eq hkperm
  calc recalcProducts ed H (recalcProducts ed H ps)
      = layoutGroups H (resolveList ed (recalcProducts ed H ps))
          (sortedKeys (resolveList ed (recalcProducts ed H ps))) 0 := rfl
    _ = layoutGroups H (recalcProducts ed H ps) (sortedKeys (recalcProducts ed H ps)) 0 := by
        rw [resolveList_layout_self]
    _ = layoutGroups H (recalcProducts ed H ps) (sortedKeys (resolveList ed ps)) 0 := by
        rw [hkeys]
    _ = layoutGroups H (layoutGroups H (resolveList ed ps) (sortedKeys (resolveList ed ps)) 0)
          (sortedKeys (resolveList ed ps)) 0 := by rw [hLdef]
    _ = layoutGroups H (resolveList ed ps) (sortedKeys (resolveList ed ps)) 0 :=
        layoutGroups_twice H _ _ 0 hknd
    _ = recalcProducts ed H ps := hLdef.symm

/-- A `null` dataset leaves the module list untouched. -/
theorem recalculateLayout_none (moduleId : String) (modules : List Module) :
    recalculateLayout moduleId modules none = modules := by
  rw [recalculateLayout.eq_def]
  cases hfind : modules.find? (fun m => decide (m.id = moduleId)) <;> rfl

/-- A missing module leaves the module list untouched. -/
theorem recalculateLayout_find_none (moduleId : String) (modules : List Module)
    (ed : Option (List ExcelProduct))
    (hfind : modules.find? (fun m => decide (m.id = moduleId)) = none) :
    recalculateLayout moduleId modules ed = modules := by
  rw [recalculateLayout.eq_def, hfind]

/-- With the module found and a dataset present, the relayout maps the module
list, replacing the products of every module carrying the target id. -/
theorem recalculateLayout_some (moduleId : String) (modules : List Module) (md : Module)
    (ed : List ExcelProduct)
    (hfind : modules.find? (fun m => decide (m.id = moduleId)) = some md) :
    recalculateLayout moduleId modules (some ed)
      = modules.map (fun m => if m.id = moduleId then
          { m with products := recalcProducts ed md.height md.products } else m) := by
  rw [recalculateLayout.eq_def, hfind]

/-- C10.  The layout recomputation is idempotent: running it twice on the same
module id and dataset with no intervening mutation equals running it once — in
particular the second run leaves every product's coordinates and position
encoding and every module's dimensions exactly as the first run produced
them. -/
theorem C10_theorem (moduleId : String) (modules : List Module)
    (ed : Option (List ExcelProduct)) :
    recalculateLayout moduleId (recalculateLayout moduleId modules ed) ed
      = recalculateLayout moduleId modules ed := by
  cases ed with
  | none => rw [recalculateLayout_none, recalculateLayout_none]
  | some ed2 =>
    cases hfind : modules.find? (fun m => decide (m.id = moduleId)) with
    | none =>
      rw [recalculateLayout_find_none _ _ _ hfind, recalculateLayout_find_none _ _ _ hfind]
    | some md =>
      have hmdid : md.id = moduleId := by
        have := List.find?_some hfind
        simpa using this
      rw [recalculateLayout_some moduleId modules md ed2 hfind]
      have hfind2 : (modules.map (fun m => if m.id = moduleId then
          { m with products := recalcProducts ed2 md.height md.products } else m)).find?
            (fun m => decide (m.id = moduleId))
          = some (if md.id = moduleId then
            { md with products := recalcProducts ed2 md.height md.products } else md) := by
        rw [List.find?_map]
        have hpf : ((fun (m : Module) => decide (m.id = moduleId))
              ∘ (fun (m : Module) => if m.id = moduleId then
                { m with products := recalcProducts ed2 md.height md.products } else m))
            = (fun (m : Module) => decide (m.id = moduleId)) := by
          funext m
          by_cases hc : m.id = moduleId <;> simp [hc]
        rw [hpf, hfind]
        rfl
      rw [recalculateLayout_some moduleId _ _ ed2 hfind2]
      rw [if_pos hmdid]
      rw [List.map_map]
      refine List.map_congr_left (fun m _ => ?_)
      simp only [Function.comp_apply]
      by_cases hc : m.id = moduleId
      · rw [if_pos hc]
        rw [if_pos (show ({ m with products := recalcProducts ed2 md.height md.products }
            : Module).id = moduleId from hc)]
        dsimp only
        rw [recalcProducts_idem]
      · rw [if_neg hc, if_neg hc]

end Planogram
